import Mathlib

/-!
Shallow embedding of pandaserver/taskbuffer/GlobalShares.py, the hierarchical
fair-share engine: the weighted share tree (class Share / Node), weight
normalization, leaf enumeration, under-pledge sorting, the HS06 distribution
dictionary with its bottom-up aggregation, the task classifier, and branch
loading from the share store.  Python floats are embedded as rationals, Python
dicts as functions into Option, raised exceptions as Option results.
-/

/-! ## Regular expressions

The classifier fields of a share are applied with re.match, which anchors the
pattern at the start of the string but does not require it to consume the whole
string.  We embed patterns as a standard regular-expression syntax with a
derivative-based matcher. -/

inductive Regex where
  | emp : Regex
  | eps : Regex
  | chr : Char → Regex
  | dot : Regex
  | alt : Regex → Regex → Regex
  | cat : Regex → Regex → Regex
  | star : Regex → Regex
deriving DecidableEq

def Regex.nullable : Regex → Bool
  | .emp => false
  | .eps => true
  | .chr _ => false
  | .dot => false
  | .alt a b => a.nullable || b.nullable
  | .cat a b => a.nullable && b.nullable
  | .star _ => true

def Regex.deriv : Regex → Char → Regex
  | .emp, _ => .emp
  | .eps, _ => .emp
  | .chr c, x => if x = c then .eps else .emp
  | .dot, _ => .eps
  | .alt a b, x => .alt (a.deriv x) (b.deriv x)
  | .cat a b, x =>
      if a.nullable then .alt (.cat (a.deriv x) b) (b.deriv x) else .cat (a.deriv x) b
  | .star a, x => .cat (a.deriv x) (.star a)

/-- Whole-string acceptance: the pattern consumes exactly the given characters. -/
def Regex.matchFull (r : Regex) : List Char → Bool
  | [] => r.nullable
  | c :: cs => (r.deriv c).matchFull cs

/-- Anchored search as performed by re.match: succeed as soon as some initial
segment of the input is accepted; the rest of the input is ignored. -/
def Regex.matchFrom (r : Regex) : List Char → Bool
  | [] => r.nullable
  | c :: cs => r.nullable || (r.deriv c).matchFrom cs

/-- re.match(pattern, s) returning whether a match object would be produced. -/
def reMatch (r : Regex) (s : String) : Bool :=
  r.matchFrom s.toList

theorem Regex.matchFrom_iff (r : Regex) (cs : List Char) :
    r.matchFrom cs = true ↔ ∃ p q, cs = p ++ q ∧ r.matchFull p = true := by
  induction cs generalizing r with
  | nil =>
      simp only [Regex.matchFrom]
      constructor
      · intro h
        exact ⟨[], [], rfl, h⟩
      · rintro ⟨p, q, hpq, hp⟩
        rcases List.append_eq_nil.mp hpq.symm with ⟨rfl, rfl⟩
        exact hp
  | cons c cs ih =>
      simp only [Regex.matchFrom, Bool.or_eq_true]
      constructor
      · rintro (h | h)
        · exact ⟨[], c :: cs, rfl, h⟩
        · rcases (ih _).mp h with ⟨p, q, hpq, hp⟩
          exact ⟨c :: p, q, by simp [hpq], hp⟩
      · rintro ⟨p, q, hpq, hp⟩
        cases p with
        | nil =>
            left
            simpa [Regex.matchFull] using hp
        | cons c0 p =>
            right
            have hc : c0 = c ∧ p ++ q = cs := by
              constructor
              · exact (List.cons.injEq _ _ _ _ ▸ hpq).1.symm
              · exact ((List.cons.injEq _ _ _ _ ▸ hpq).2).symm
            refine (ih _).mpr ⟨p, q, hc.2.symm, ?_⟩
            have : Regex.matchFull (r.deriv c0) p = true := hp
            rw [hc.1] at this
            exact this

/-! ## The share tree

class Share(Node): name, value, parent, prodsourcelabel, workinggroup,
campaign, processingtype, plus the children list inherited from Node. -/

inductive Share where
  | mk : String → ℚ → Option String → Option Regex → Option Regex →
         Option Regex → Option Regex → List Share → Share

def Share.name : Share → String
  | .mk n _ _ _ _ _ _ _ => n

def Share.value : Share → ℚ
  | .mk _ v _ _ _ _ _ _ => v

def Share.parent : Share → Option String
  | .mk _ _ p _ _ _ _ _ => p

def Share.prodsourcelabel : Share → Option Regex
  | .mk _ _ _ a _ _ _ _ => a

def Share.workinggroup : Share → Option Regex
  | .mk _ _ _ _ a _ _ _ => a

def Share.campaign : Share → Option Regex
  | .mk _ _ _ _ _ a _ _ => a

def Share.processingtype : Share → Option Regex
  | .mk _ _ _ _ _ _ a _ => a

def Share.children : Share → List Share
  | .mk _ _ _ _ _ _ _ cs => cs

theorem Share.sizeOf_lt_of_mem {c t : Share} (h : c ∈ t.children) :
    sizeOf c < sizeOf t := by
  cases t with
  | mk n v p a b d e cs =>
      simp only [Share.children] at h
      have := List.sizeOf_lt_of_mem h
      simp only [Share.mk.sizeOf_spec]
      omega

/-- Structural induction over the share tree through the children list. -/
theorem Share.my_induction (P : Share → Prop)
    (step : ∀ t : Share, (∀ c ∈ t.children, P c) → P t) : ∀ t, P t := by
  intro t
  have : ∀ n : ℕ, ∀ t : Share, sizeOf t ≤ n → P t := by
    intro n
    induction n with
    | zero =>
        intro t ht
        cases t with
        | mk _ _ _ _ _ _ _ _ =>
            simp only [Share.mk.sizeOf_spec] at ht
            omega
    | succ n ih =>
        intro t ht
        refine step t (fun c hc => ih c ?_)
        have := Share.sizeOf_lt_of_mem hc
        omega
  exact this (sizeOf t) t le_rfl

/-- Map with an Option-valued function, propagating the first failure: the
shape a Python loop takes when an exception can escape from any iteration. -/
def listMapOpt (f : α → Option β) : List α → Option (List β)
  | [] => some []
  | x :: xs =>
      match f x with
      | none => none
      | some y =>
          match listMapOpt f xs with
          | none => none
          | some ys => some (y :: ys)

/-- Fold with an Option-valued step, propagating the first failure. -/
def listFoldOpt (f : β → α → Option β) (b : β) : List α → Option β
  | [] => some b
  | x :: xs =>
      match f b x with
      | none => none
      | some b2 => listFoldOpt f b2 xs

def sumValues (cs : List Share) : ℚ :=
  (cs.map Share.value).sum



theorem Share.sizeOf_children_lt (t : Share) : sizeOf t.children < sizeOf t := by
  cases t with
  | mk n v p a b c e cs =>
      simp only [Share.children, Share.mk.sizeOf_spec]
      omega

/-! ## normalize

Share.normalize(multiplier=100, divider=100): multiplies the node value by
multiplier/divider, then recurses into the children with the new value as
multiplier and the sum of the children values as divider.  A zero divider is a
ZeroDivisionError in Python, embedded as none; the error propagates out of the
loop over the children, which the list companion function mirrors. -/

mutual

def Share.normalizeAux (m d : ℚ) (t : Share) : Option Share :=
  if d = 0 then none
  else
    let v2 := t.value * (m / d)
    if t.children.isEmpty then
      some (Share.mk t.name v2 t.parent t.prodsourcelabel t.workinggroup
        t.campaign t.processingtype t.children)
    else
      match normalizeList (t.value * (m / d)) (sumValues t.children) t.children with
      | none => none
      | some cs2 =>
          some (Share.mk t.name v2 t.parent t.prodsourcelabel t.workinggroup
            t.campaign t.processingtype cs2)
termination_by sizeOf t
decreasing_by exact Share.sizeOf_children_lt t

def normalizeList (m d : ℚ) (l : List Share) : Option (List Share) :=
  match l with
  | [] => some []
  | c :: cs =>
      match Share.normalizeAux m d c with
      | none => none
      | some c2 =>
          match normalizeList m d cs with
          | none => none
          | some cs2 => some (c2 :: cs2)
termination_by sizeOf l
decreasing_by
  all_goals simp only [List.cons.sizeOf_spec]
  all_goals omega

end

/-- tree.normalize() with the default arguments, as called once on the root. -/
def Share.normalize (t : Share) : Option Share :=
  Share.normalizeAux 100 100 t

/-! ## get_leaves

Node.get_leaves(leaves=[]) appends the leaves of the subtree to the list it was
given and returns that same list.  The Python default argument is a single
shared list, so a second call without arguments passes the accumulated result
of the previous call as the starting list. -/

mutual

def getLeaves (t : Share) (acc : List Share) : List Share :=
  if t.children.isEmpty then acc ++ [t]
  else getLeavesList t.children acc
termination_by sizeOf t
decreasing_by exact Share.sizeOf_children_lt t

def getLeavesList (l : List Share) (acc : List Share) : List Share :=
  match l with
  | [] => acc
  | c :: cs => getLeavesList cs (getLeaves c acc)
termination_by sizeOf l
decreasing_by
  all_goals simp only [List.cons.sizeOf_spec]
  all_goals omega

end

/-! ## Depth-first leaf enumeration of a subtree on its own -/

mutual

def dfsLeaves (t : Share) : List Share :=
  if t.children.isEmpty then [t]
  else dfsLeavesList t.children
termination_by sizeOf t
decreasing_by exact Share.sizeOf_children_lt t

def dfsLeavesList (l : List Share) : List Share :=
  match l with
  | [] => []
  | c :: cs => dfsLeaves c ++ dfsLeavesList cs
termination_by sizeOf l
decreasing_by
  all_goals simp only [List.cons.sizeOf_spec]
  all_goals omega

end

/-! ## Names of all nodes of a subtree, root first -/

mutual

def Share.allNames (t : Share) : List String :=
  t.name :: allNamesList t.children
termination_by sizeOf t
decreasing_by exact Share.sizeOf_children_lt t

def allNamesList (l : List Share) : List String :=
  match l with
  | [] => []
  | c :: cs => Share.allNames c ++ allNamesList cs
termination_by sizeOf l
decreasing_by
  all_goals simp only [List.cons.sizeOf_spec]
  all_goals omega

end

/-! ## Tree-wide predicates -/

/-- P holds at every node of the subtree. -/
inductive TreeAll (P : Share → Prop) : Share → Prop where
  | node : ∀ t : Share, P t → (∀ c ∈ t.children, TreeAll P c) → TreeAll P t

/-- s is a node of the subtree rooted at t. -/
inductive Occurs : Share → Share → Prop where
  | refl (t : Share) : Occurs t t
  | child {s c t : Share} (hmem : c ∈ t.children) (ho : Occurs s c) :
      Occurs s t

/-- Every sibling group of the tree has a positive weight sum. -/
def PosSums (t : Share) : Prop :=
  TreeAll (fun s => s.children ≠ [] → 0 < sumValues s.children) t

/-- At every node with children, the children values sum to the node value. -/
def SumInv (t : Share) : Prop :=
  TreeAll (fun s => s.children ≠ [] → sumValues s.children = s.value) t

/-! ## The HS06 distribution dictionary

Entries of hs_distribution_dict: created by setdefault with the three keys
pledged, queued and executing; an ignore row additionally stores its value
under the ignore key, modelled by the optional field. -/

structure HSEntry where
  pledged : ℚ
  queued : ℚ
  executing : ℚ
  ignoreVal : Option ℚ
deriving DecidableEq

abbrev HSDist := String → Option HSEntry

def HSDist.update (d : HSDist) (k : String) (v : HSEntry) : HSDist :=
  fun k2 => if k2 = k then some v else d k2

/-! ## sort_branch_by_current_hs_distribution

The Python loop computes child1_under_pledge with an unguarded dictionary
lookup (a missing entry raises KeyError), scans children_sorted keeping a
loop_index that is not advanced when a child2 lookup raises KeyError, breaks
at the first strictly smaller under-pledge, and inserts at the found index or
at the end; list.insert clamps an index past the end. -/

def underPledge (d : HSDist) (s : Share) : Option ℚ :=
  (d s.name).map (fun e => e.pledged - e.executing)

def findInsertIdx (key : α → Option ℚ) (u1 : ℚ) : List α → ℕ → Option ℕ
  | [], _ => none
  | c2 :: rest, li =>
      match key c2 with
      | none => findInsertIdx key u1 rest li
      | some u2 => if u2 < u1 then some li else findInsertIdx key u1 rest (li + 1)

def pyListInsert : ℕ → α → List α → List α
  | 0, x, l => x :: l
  | _ + 1, x, [] => [x]
  | n + 1, x, e :: es => e :: pyListInsert n x es

def pyInsertChild (key : α → Option ℚ) (acc : List α) (c : α) : Option (List α) :=
  match key c with
  | none => none
  | some u1 => some (pyListInsert ((findInsertIdx key u1 acc 0).getD acc.length) c acc)

theorem pyListInsert_sizeOf [SizeOf α] (n : ℕ) (x : α) (l : List α) :
    sizeOf (pyListInsert n x l) = 1 + sizeOf x + sizeOf l := by
  induction l generalizing n with
  | nil => cases n <;> (simp [pyListInsert]; try omega)
  | cons e es ih =>
      cases n with
      | zero => simp [pyListInsert]; try omega
      | succ n => simp [pyListInsert, ih]; try omega

theorem listFoldOpt_pyInsert_sizeOf [SizeOf α] (key : α → Option ℚ)
    (l : List α) (acc out : List α)
    (h : listFoldOpt (pyInsertChild key) acc l = some out) :
    sizeOf out + 1 = sizeOf acc + sizeOf l := by
  induction l generalizing acc with
  | nil =>
      simp only [listFoldOpt, Option.some.injEq] at h
      subst h
      simp
  | cons c cs ih =>
      simp only [listFoldOpt] at h
      cases hc : pyInsertChild key acc c with
      | none => rw [hc] at h; exact absurd h (by simp)
      | some acc2 =>
          rw [hc] at h
          have h2 := ih acc2 h
          have : sizeOf acc2 = 1 + sizeOf c + sizeOf acc := by
            simp only [pyInsertChild] at hc
            cases hk : key c with
            | none => rw [hk] at hc; exact absurd hc (by simp)
            | some u1 =>
                rw [hk] at hc
                simp only [Option.some.injEq] at hc
                subst hc
                exact pyListInsert_sizeOf _ _ _
          simp only [List.cons.sizeOf_spec]
          omega

mutual

def Share.sortBranch (d : HSDist) (t : Share) : Option (List Share) :=
  if t.children.isEmpty then some [t]
  else
    match h : listFoldOpt (pyInsertChild (underPledge d)) [] t.children with
    | none => none
    | some cs2 => sortMany d cs2
termination_by sizeOf t
decreasing_by
  have h2 := listFoldOpt_pyInsert_sizeOf (underPledge d) t.children [] cs2 h
  have h3 := Share.sizeOf_children_lt t
  simp only [List.nil.sizeOf_spec] at h2
  omega

def sortMany (d : HSDist) (l : List Share) : Option (List Share) :=
  match l with
  | [] => some []
  | c :: cs =>
      match Share.sortBranch d c with
      | none => none
      | some ls =>
          match sortMany d cs with
          | none => none
          | some rest => some (ls ++ rest)
termination_by sizeOf l
decreasing_by
  all_goals simp only [List.cons.sizeOf_spec]
  all_goals omega

end

/-! ## aggregate_hs_distribution

A leaf reads its own entry (a KeyError leaves the zeros), an inner node folds
its children left to right threading the dictionary, then writes a fresh
three-key entry for itself. -/

structure Triple where
  executing : ℚ
  queued : ℚ
  pledged : ℚ
deriving DecidableEq

def Triple.add (a b : Triple) : Triple :=
  ⟨a.executing + b.executing, a.queued + b.queued, a.pledged + b.pledged⟩

mutual

def Share.aggregate (t : Share) (d : HSDist) : Triple × HSDist :=
  if t.children.isEmpty then
    match d t.name with
    | some e => (⟨e.executing, e.queued, e.pledged⟩, d)
    | none => (⟨0, 0, 0⟩, d)
  else
    let r := aggregateList t.children (⟨0, 0, 0⟩, d)
    (r.1, HSDist.update r.2 t.name ⟨r.1.pledged, r.1.queued, r.1.executing, none⟩)
termination_by sizeOf t
decreasing_by exact Share.sizeOf_children_lt t

def aggregateList (l : List Share) (st : Triple × HSDist) : Triple × HSDist :=
  match l with
  | [] => st
  | c :: cs =>
      let r2 := Share.aggregate c st.2
      aggregateList cs (st.1.add r2.1, r2.2)
termination_by sizeOf l
decreasing_by
  all_goals simp only [List.cons.sizeOf_spec]
  all_goals omega

end

/-! ## get_hs_leave_distribution

The SQL CASE maps each capacity row into one of the three status groups
before the rows reach the engine. -/

inductive StatusGroup where
  | queued : StatusGroup
  | executing : StatusGroup
  | ignore : StatusGroup
deriving DecidableEq

structure RawRow where
  gshare : String
  group : StatusGroup
  hs : ℚ
deriving DecidableEq

def emptyEntry : HSEntry := ⟨0, 0, 0, none⟩

/-- hs_distribution_dict[gshare][status_group] = hs after the setdefault. -/
def setGroupVal (e : HSEntry) (g : StatusGroup) (hs : ℚ) : HSEntry :=
  match g with
  | .queued => { e with queued := hs }
  | .executing => { e with executing := hs }
  | .ignore => { e with ignoreVal := some hs }

structure BuildState where
  dict : HSDist
  queuedTotal : ℚ
  executingTotal : ℚ
  ignoreTotal : ℚ

/-- One iteration of the first loop: setdefault, store the value under the
status group key, add the value to the total of its status group. -/
def applyRawRow (st : BuildState) (r : RawRow) : BuildState :=
  let e := (st.dict r.gshare).getD emptyEntry
  let d2 := HSDist.update st.dict r.gshare (setGroupVal e r.group r.hs)
  match r.group with
  | .queued => { st with dict := d2, queuedTotal := st.queuedTotal + r.hs }
  | .executing => { st with dict := d2, executingTotal := st.executingTotal + r.hs }
  | .ignore => { st with dict := d2, ignoreTotal := st.ignoreTotal + r.hs }

def buildRawState (raw : List RawRow) : BuildState :=
  raw.foldl applyRawRow ⟨fun _ => none, 0, 0, 0⟩

/-- The second loop of get_hs_leave_distribution: for every leave share,
setdefault then overwrite pledged with executing_total * value / 100. -/
def pledgedStep (total : ℚ) (d : HSDist) (s : Share) : HSDist :=
  let e := (d s.name).getD emptyEntry
  HSDist.update d s.name { e with pledged := total * s.value / 100 }

def getHsLeaveDistribution (leaves : List Share) (raw : List RawRow) : HSDist :=
  let st := buildRawState raw
  leaves.foldl (pledgedStep st.executingTotal) st.dict

/-- reload_hs_distribution: rebuild the leaf-level dictionary and aggregate it
through the tree; leave_shares is the result of the first get_leaves call. -/
def reloadHsDistribution (t : Share) (raw : List RawRow) : HSDist :=
  (Share.aggregate t (getHsLeaveDistribution (getLeaves t []) raw)).2

/-! ## compare_share_task / get_share_for_task -/

structure TaskSpec where
  prodSourceLabel : String
  workingGroup : String
  campaign : String
  processingtype : String

/-- One classifier field: a missing pattern always passes, a present pattern
must re.match the task field. -/
def fieldMatches (pat : Option Regex) (v : String) : Bool :=
  match pat with
  | none => true
  | some p => reMatch p v

/-- compare_share_task returns False at the first failing field and True at
the end; equivalently the conjunction of the four field checks in order. -/
def compareShareTask (s : Share) (t : TaskSpec) : Bool :=
  fieldMatches s.prodsourcelabel t.prodSourceLabel &&
  fieldMatches s.workinggroup t.workingGroup &&
  fieldMatches s.campaign t.campaign &&
  fieldMatches s.processingtype t.processingtype

/-- get_share_for_task: scan leave_shares, keep the first match, otherwise the
sentinel; the boolean records whether the warning was logged, which the code
does exactly when the selected name is still the sentinel. -/
def getShareForTask (leaves : List Share) (t : TaskSpec) : String × Bool :=
  let selected :=
    match leaves.find? (fun s => compareShareTask s t) with
    | some s => s.name
    | none => "Undefined"
  (selected, selected == "Undefined")

/-! ## Building the tree from the share store -/

structure ShareRow where
  name : String
  value : ℚ
  parent : Option String
  prodsourcelabel : Option Regex
  workinggroup : Option Regex
  campaign : Option Regex
  processingtype : Option Regex

/-- GlobalShares.__load_branch: copy the row into a node, fetch its children
by name, recurse into each.  Python bounds the recursion only by the
interpreter recursion limit; the fuel argument models that limit, with none
standing for the RecursionError raised when it is exhausted. -/
def loadBranch (getShares : Option String → List ShareRow) :
    ℕ → ShareRow → Option Share
  | 0, _ => none
  | fuel + 1, r =>
      let rows := getShares (some r.name)
      if rows.isEmpty then
        some (Share.mk r.name r.value r.parent r.prodsourcelabel r.workinggroup
          r.campaign r.processingtype [])
      else
        match listMapOpt (loadBranch getShares fuel) rows with
        | none => none
        | some cs =>
            some (Share.mk r.name r.value r.parent r.prodsourcelabel
              r.workinggroup r.campaign r.processingtype cs)

/-- GlobalShares.__init__ tree construction: a root with value 100 and no
patterns, one loaded branch per top-level row, then normalize. -/
def buildTree (getShares : Option String → List ShareRow) (fuel : ℕ) :
    Option Share :=
  match listMapOpt (loadBranch getShares fuel) (getShares none) with
  | none => none
  | some cs => Share.normalize (Share.mk "root" 100 none none none none none cs)

/-! ## Reference distribution, following the words of the specification -/

/-- The value a share takes from its measurement rows for one status group:
the last row wins because each row overwrites the dictionary slot, and a
share with no row keeps zero. -/
def lastVal (raw : List RawRow) (g : String) (sg : StatusGroup) : ℚ :=
  raw.foldl (fun a r => if r.gshare = g ∧ r.group = sg then r.hs else a) 0

/-- Sum of the executing capacity over all raw rows, the total the code
uses. -/
def codeExecTotal (raw : List RawRow) : ℚ :=
  ((raw.filter (fun r => r.group = StatusGroup.executing)).map RawRow.hs).sum

/-- Sum of executing over the leaves of the tree, the total named by the
claim. -/
def claimExecTotal (t : Share) (raw : List RawRow) : ℚ :=
  ((dfsLeaves t).map (fun l => lastVal raw l.name StatusGroup.executing)).sum

/-! ## Reference triple of a node, following the words of the specification:
a leaf takes queued and executing from its measurement rows and pledged from
the given total scaled by its weight; an inner node is the element-wise sum
of its children. -/

mutual

def refTriple (total : ℚ) (raw : List RawRow) (s : Share) : Triple :=
  if s.children.isEmpty then
    ⟨lastVal raw s.name StatusGroup.executing,
     lastVal raw s.name StatusGroup.queued,
     total * s.value / 100⟩
  else
    refTripleList total raw s.children
termination_by sizeOf s
decreasing_by exact Share.sizeOf_children_lt s

def refTripleList (total : ℚ) (raw : List RawRow) (l : List Share) : Triple :=
  match l with
  | [] => ⟨0, 0, 0⟩
  | c :: cs => (refTriple total raw c).add (refTripleList total raw cs)
termination_by sizeOf l
decreasing_by
  all_goals simp only [List.cons.sizeOf_spec]
  all_goals omega

end

/-! ## Projection and unfolding lemmas -/

@[simp] theorem Share.name_mk (n : String) (v : ℚ) (p : Option String)
    (a b c e : Option Regex) (cs : List Share) :
    (Share.mk n v p a b c e cs).name = n := rfl

@[simp] theorem Share.value_mk (n : String) (v : ℚ) (p : Option String)
    (a b c e : Option Regex) (cs : List Share) :
    (Share.mk n v p a b c e cs).value = v := rfl

@[simp] theorem Share.parent_mk (n : String) (v : ℚ) (p : Option String)
    (a b c e : Option Regex) (cs : List Share) :
    (Share.mk n v p a b c e cs).parent = p := rfl

@[simp] theorem Share.prodsourcelabel_mk (n : String) (v : ℚ) (p : Option String)
    (a b c e : Option Regex) (cs : List Share) :
    (Share.mk n v p a b c e cs).prodsourcelabel = a := rfl

@[simp] theorem Share.workinggroup_mk (n : String) (v : ℚ) (p : Option String)
    (a b c e : Option Regex) (cs : List Share) :
    (Share.mk n v p a b c e cs).workinggroup = b := rfl

@[simp] theorem Share.campaign_mk (n : String) (v : ℚ) (p : Option String)
    (a b c e : Option Regex) (cs : List Share) :
    (Share.mk n v p a b c e cs).campaign = c := rfl

@[simp] theorem Share.processingtype_mk (n : String) (v : ℚ) (p : Option String)
    (a b c e : Option Regex) (cs : List Share) :
    (Share.mk n v p a b c e cs).processingtype = e := rfl

@[simp] theorem Share.children_mk (n : String) (v : ℚ) (p : Option String)
    (a b c e : Option Regex) (cs : List Share) :
    (Share.mk n v p a b c e cs).children = cs := rfl

@[simp] theorem sumValues_nil : sumValues [] = 0 := rfl

@[simp] theorem sumValues_cons (c : Share) (cs : List Share) :
    sumValues (c :: cs) = c.value + sumValues cs := by
  simp [sumValues]

theorem normalizeAux_zero (m : ℚ) (t : Share) :
    Share.normalizeAux m 0 t = none := by
  simp [Share.normalizeAux]

theorem normalizeAux_leaf (m d : ℚ) (t : Share) (hd : d ≠ 0)
    (hc : t.children = []) :
    Share.normalizeAux m d t =
      some (Share.mk t.name (t.value * (m / d)) t.parent t.prodsourcelabel
        t.workinggroup t.campaign t.processingtype t.children) := by
  rw [Share.normalizeAux]
  simp [hd, hc]

theorem normalizeAux_node (m d : ℚ) (t : Share) (hd : d ≠ 0)
    (hc : t.children ≠ []) :
    Share.normalizeAux m d t =
      match normalizeList (t.value * (m / d)) (sumValues t.children)
          t.children with
      | none => none
      | some cs2 =>
          some (Share.mk t.name (t.value * (m / d)) t.parent
            t.prodsourcelabel t.workinggroup t.campaign t.processingtype
            cs2) := by
  rw [Share.normalizeAux]
  simp [hd, hc]

theorem normalizeList_nil (m d : ℚ) : normalizeList m d [] = some [] := by
  rw [normalizeList]

theorem normalizeList_cons (m d : ℚ) (c : Share) (cs : List Share) :
    normalizeList m d (c :: cs) =
      match Share.normalizeAux m d c with
      | none => none
      | some c2 =>
          match normalizeList m d cs with
          | none => none
          | some cs2 => some (c2 :: cs2) := by
  rw [normalizeList]

/-! ## Lemmas about normalize -/

theorem normalizeList_some_char (m d : ℚ) :
    ∀ l l2 : List Share,
      (∀ c ∈ l, ∀ m2 d2 : ℚ, ∀ c2 : Share,
        Share.normalizeAux m2 d2 c = some c2 →
          c2.value = c.value * (m2 / d2) ∧ SumInv c2) →
      normalizeList m d l = some l2 →
      sumValues l2 = sumValues l * (m / d) ∧ (∀ x ∈ l2, SumInv x) ∧
        (l ≠ [] → d ≠ 0) := by
  intro l
  induction l with
  | nil =>
      intro l2 _ h2
      rw [normalizeList_nil] at h2
      cases h2
      simp
  | cons c cs ih =>
      intro l2 hc h2
      rw [normalizeList_cons] at h2
      cases hcv : Share.normalizeAux m d c with
      | none => rw [hcv] at h2; exact absurd h2 (by simp)
      | some c2 =>
          rw [hcv] at h2
          cases hcs : normalizeList m d cs with
          | none => rw [hcs] at h2; exact absurd h2 (by simp)
          | some cs2 =>
              rw [hcs] at h2
              simp only [Option.some.injEq] at h2
              subst h2
              have hd : d ≠ 0 := by
                intro h0
                subst h0
                rw [normalizeAux_zero] at hcv
                exact absurd hcv (by simp)
              obtain ⟨hval, hsum⟩ := hc c (by simp) m d c2 hcv
              obtain ⟨hrest, hall, _⟩ :=
                ih cs2 (fun x hx => hc x (by simp [hx])) hcs
              refine ⟨?_, ?_, fun _ => hd⟩
              · simp only [sumValues_cons, hval, hrest]
                ring
              · intro x hx
                rcases List.mem_cons.mp hx with rfl | hx
                · exact hsum
                · exact hall x hx

theorem normalizeAux_some_char :
    ∀ t : Share, ∀ m d : ℚ, ∀ t2 : Share,
      Share.normalizeAux m d t = some t2 →
        t2.value = t.value * (m / d) ∧ SumInv t2 := by
  refine Share.my_induction _ (fun t iht => ?_)
  intro m d t2 h
  by_cases hd : d = 0
  · subst hd
    rw [normalizeAux_zero] at h
    exact absurd h (by simp)
  by_cases hc : t.children = []
  · rw [normalizeAux_leaf m d t hd hc] at h
    cases h
    refine ⟨by simp, ?_⟩
    constructor
    · intro hne
      simp [hc] at hne
    · intro c hcc
      simp [hc] at hcc
  · rw [normalizeAux_node m d t hd hc] at h
    cases hl : normalizeList (t.value * (m / d)) (sumValues t.children)
        t.children with
    | none => rw [hl] at h; exact absurd h (by simp)
    | some cs2 =>
        rw [hl] at h
        simp only [Option.some.injEq] at h
        subst h
        obtain ⟨hsum, hall, hdz⟩ :=
          normalizeList_some_char _ _ t.children cs2
            (fun c hcc => iht c hcc) hl
        have hds : sumValues t.children ≠ 0 := hdz hc
        refine ⟨by simp, ?_⟩
        constructor
        · intro _
          simp only [Share.children_mk, Share.value_mk]
          rw [hsum]
          field_simp
          ring
        · intro c hcc
          simp only [Share.children_mk] at hcc
          exact hall c hcc

theorem normalizeList_isSome (m d : ℚ) :
    ∀ l : List Share,
      (∀ c ∈ l, PosSums c → ∀ m2 d2 : ℚ, d2 ≠ 0 →
        (Share.normalizeAux m2 d2 c).isSome) →
      (∀ c ∈ l, PosSums c) → d ≠ 0 →
      (normalizeList m d l).isSome := by
  intro l
  induction l with
  | nil =>
      intro _ _ _
      rw [normalizeList_nil]
      simp
  | cons c cs ih =>
      intro hih hpos hd
      rw [normalizeList_cons]
      have h1 := hih c (by simp) (hpos c (by simp)) m d hd
      cases hcv : Share.normalizeAux m d c with
      | none => rw [hcv] at h1; exact absurd h1 (by simp)
      | some c2 =>
          have h2 := ih (fun x hx => hih x (by simp [hx]))
            (fun x hx => hpos x (by simp [hx])) hd
          cases hcs : normalizeList m d cs with
          | none => rw [hcs] at h2; exact absurd h2 (by simp)
          | some cs2 => simp

theorem normalizeAux_isSome :
    ∀ t : Share, PosSums t → ∀ m d : ℚ, d ≠ 0 →
      (Share.normalizeAux m d t).isSome := by
  refine Share.my_induction _ (fun t iht => ?_)
  intro hpos m d hd
  by_cases hc : t.children = []
  · rw [normalizeAux_leaf m d t hd hc]
    simp
  · rw [normalizeAux_node m d t hd hc]
    cases hpos with
    | node _ hp hcall =>
        have hds : sumValues t.children ≠ 0 := ne_of_gt (hp hc)
        have := normalizeList_isSome (t.value * (m / d))
          (sumValues t.children) t.children
          (fun x hx => iht x hx)
          (fun x hx => hcall x hx) hds
        cases hl : normalizeList (t.value * (m / d)) (sumValues t.children)
            t.children with
        | none => rw [hl] at this; exact absurd this (by simp)
        | some cs2 => simp

theorem normalizeList_id :
    ∀ l : List Share,
      (∀ c ∈ l, SumInv c → ∀ m d : ℚ, ∀ c2 : Share, m = d →
        Share.normalizeAux m d c = some c2 → c2 = c) →
      (∀ c ∈ l, SumInv c) →
      ∀ m d : ℚ, ∀ l2 : List Share, m = d →
        normalizeList m d l = some l2 → l2 = l := by
  intro l
  induction l with
  | nil =>
      intro _ _ m d l2 _ h2
      rw [normalizeList_nil] at h2
      cases h2
      rfl
  | cons c cs ih =>
      intro hih hsum m d l2 hmd h2
      rw [normalizeList_cons] at h2
      cases hcv : Share.normalizeAux m d c with
      | none => rw [hcv] at h2; exact absurd h2 (by simp)
      | some c2 =>
          rw [hcv] at h2
          cases hcs : normalizeList m d cs with
          | none => rw [hcs] at h2; exact absurd h2 (by simp)
          | some cs2 =>
              rw [hcs] at h2
              simp only [Option.some.injEq] at h2
              subst h2
              have e1 : c2 = c :=
                hih c (by simp) (hsum c (by simp)) m d c2 hmd hcv
              have e2 : cs2 = cs :=
                ih (fun x hx => hih x (by simp [hx]))
                  (fun x hx => hsum x (by simp [hx])) m d cs2 hmd hcs
              rw [e1, e2]

theorem normalizeAux_id :
    ∀ t : Share, SumInv t → ∀ m d : ℚ, ∀ t2 : Share, m = d →
      Share.normalizeAux m d t = some t2 → t2 = t := by
  refine Share.my_induction _ (fun t iht => ?_)
  intro hinv m d t2 hmd h
  subst hmd
  by_cases hd : m = 0
  · subst hd
    rw [normalizeAux_zero] at h
    exact absurd h (by simp)
  have hdiv : m / m = 1 := div_self hd
  by_cases hc : t.children = []
  · rw [normalizeAux_leaf m m t hd hc] at h
    cases h
    cases t with
    | mk n v p a b c e cs =>
        simp only [Share.children] at hc
        simp [hdiv, hc]
  · rw [normalizeAux_node m m t hd hc] at h
    cases hl : normalizeList (t.value * (m / m)) (sumValues t.children)
        t.children with
    | none => rw [hl] at h; exact absurd h (by simp)
    | some cs2 =>
        rw [hl] at h
        simp only [Option.some.injEq] at h
        subst h
        cases hinv with
        | node _ hp hall =>
            have hsv : sumValues t.children = t.value := hp hc
            have hmd2 : t.value * (m / m) = sumValues t.children := by
              rw [hdiv, hsv]; ring
            have e2 : cs2 = t.children :=
              normalizeList_id t.children
                (fun x hx => iht x hx)
                (fun x hx => hall x hx)
                _ _ cs2 hmd2 hl
            cases t with
            | mk n v p a b c e cs =>
                simp only [Share.children] at e2
                simp [hdiv, e2]

theorem normalizeList_zero_d (m : ℚ) (l : List Share) (h : l ≠ []) :
    normalizeList m 0 l = none := by
  cases l with
  | nil => exact absurd rfl h
  | cons c cs => rw [normalizeList_cons, normalizeAux_zero]

theorem normalizeList_mem_none (m d : ℚ) :
    ∀ l : List Share, (∃ c ∈ l, Share.normalizeAux m d c = none) →
      normalizeList m d l = none := by
  intro l
  induction l with
  | nil =>
      rintro ⟨c, hc, _⟩
      exact absurd hc (by simp)
  | cons c cs ih =>
      rintro ⟨x, hx, hnone⟩
      rw [normalizeList_cons]
      rcases List.mem_cons.mp hx with rfl | hx
      · rw [hnone]
      · cases hcv : Share.normalizeAux m d c with
        | none => rfl
        | some c2 => rw [ih ⟨x, hx, hnone⟩]

/-- A node somewhere in the tree has children whose values sum to zero. -/
def HasZeroSumNode (t : Share) : Prop :=
  ∃ s, Occurs s t ∧ s.children ≠ [] ∧ sumValues s.children = 0

theorem normalizeAux_zero_sum_none :
    ∀ t : Share, HasZeroSumNode t → ∀ m d : ℚ,
      Share.normalizeAux m d t = none := by
  refine Share.my_induction _ (fun t iht => ?_)
  rintro ⟨s, hocc, hsne, hsz⟩ m d
  by_cases hd : d = 0
  · subst hd
    exact normalizeAux_zero m t
  cases hocc with
  | refl =>
      rw [normalizeAux_node m d t hd hsne]
      rw [hsz, normalizeList_zero_d _ _ hsne]
  | child hmem hocc2 =>
      rename_i c
      have hcne : t.children ≠ [] := by
        intro h0
        rw [h0] at hmem
        exact absurd hmem (by simp)
      rw [normalizeAux_node m d t hd hcne]
      rw [normalizeList_mem_none _ _ t.children
        ⟨c, hmem, iht c hmem ⟨s, hocc2, hsne, hsz⟩ _ _⟩]

/-! ## Lemmas about get_leaves -/

theorem getLeavesList_nil (acc : List Share) : getLeavesList [] acc = acc := by
  rw [getLeavesList]

theorem getLeavesList_cons (c : Share) (cs : List Share) (acc : List Share) :
    getLeavesList (c :: cs) acc = getLeavesList cs (getLeaves c acc) := by
  rw [getLeavesList]

theorem dfsLeavesList_nil : dfsLeavesList [] = [] := by
  rw [dfsLeavesList]

theorem dfsLeavesList_cons (c : Share) (cs : List Share) :
    dfsLeavesList (c :: cs) = dfsLeaves c ++ dfsLeavesList cs := by
  rw [dfsLeavesList]

theorem getLeaves_append :
    ∀ t : Share, ∀ acc : List Share, getLeaves t acc = acc ++ dfsLeaves t := by
  refine Share.my_induction _ (fun t iht => ?_)
  intro acc
  by_cases hc : t.children = []
  · rw [getLeaves, dfsLeaves]
    simp [hc]
  · rw [getLeaves, dfsLeaves]
    simp only [List.isEmpty_iff, hc, if_neg, if_false]
    have : ∀ l : List Share, (∀ c ∈ l, ∀ a, getLeaves c a = a ++ dfsLeaves c) →
        ∀ a, getLeavesList l a = a ++ dfsLeavesList l := by
      intro l
      induction l with
      | nil =>
          intro _ a
          rw [getLeavesList_nil, dfsLeavesList_nil, List.append_nil]
      | cons c cs ih =>
          intro hl a
          rw [getLeavesList_cons, dfsLeavesList_cons,
            hl c (by simp) a,
            ih (fun x hx => hl x (by simp [hx])) _,
            List.append_assoc]
    exact this t.children iht acc

theorem dfsLeaves_ne_nil : ∀ t : Share, dfsLeaves t ≠ [] := by
  refine Share.my_induction _ (fun t iht => ?_)
  by_cases hc : t.children = []
  · rw [dfsLeaves]
    simp [hc]
  · rw [dfsLeaves]
    simp only [List.isEmpty_iff, hc, if_neg, if_false]
    cases hcl : t.children with
    | nil => exact absurd hcl hc
    | cons c cs =>
        rw [dfsLeavesList_cons]
        have := iht c (by rw [hcl]; simp)
        intro habs
        rcases List.append_eq_nil.mp habs with ⟨h1, _⟩
        exact this h1

theorem mem_dfsLeavesList (x : Share) :
    ∀ l : List Share, x ∈ dfsLeavesList l ↔ ∃ c ∈ l, x ∈ dfsLeaves c := by
  intro l
  induction l with
  | nil =>
      rw [dfsLeavesList_nil]
      simp
  | cons c cs ih =>
      rw [dfsLeavesList_cons]
      simp only [List.mem_append, ih, List.mem_cons]
      constructor
      · rintro (h | ⟨c2, hc2, hx⟩)
        · exact ⟨c, Or.inl rfl, h⟩
        · exact ⟨c2, Or.inr hc2, hx⟩
      · rintro ⟨c2, hc2 | hc2, hx⟩
        · subst hc2; exact Or.inl hx
        · exact Or.inr ⟨c2, hc2, hx⟩

theorem mem_dfsLeaves :
    ∀ t x : Share, x ∈ dfsLeaves t ↔ Occurs x t ∧ x.children = [] := by
  refine Share.my_induction _ (fun t iht => ?_)
  intro x
  by_cases hc : t.children = []
  · rw [dfsLeaves]
    simp only [List.isEmpty_iff, hc, if_pos, List.mem_singleton]
    constructor
    · rintro rfl
      exact ⟨Occurs.refl x, hc⟩
    · rintro ⟨hocc, hxc⟩
      cases hocc with
      | refl => rfl
      | child hmem _ =>
          rename_i c
          rw [hc] at hmem
          exact absurd hmem (by simp)
  · rw [dfsLeaves]
    simp only [List.isEmpty_iff, hc, if_neg, if_false]
    rw [mem_dfsLeavesList]
    constructor
    · rintro ⟨c, hcmem, hx⟩
      obtain ⟨hocc, hxc⟩ := (iht c hcmem x).mp hx
      exact ⟨Occurs.child hcmem hocc, hxc⟩
    · rintro ⟨hocc, hxc⟩
      cases hocc with
      | refl => exact absurd hxc hc
      | child hmem ho =>
          rename_i c
          exact ⟨c, hmem, (iht c hmem x).mpr ⟨ho, hxc⟩⟩

/-! ## Lemmas about the under-pledge insertion sort -/

/-- Total under-pledge key used once every lookup is known to succeed. -/
def upKey (d : HSDist) (s : Share) : ℚ :=
  match d s.name with
  | some e => e.pledged - e.executing
  | none => 0

theorem underPledge_eq_upKey (d : HSDist) (s : Share)
    (h : (d s.name).isSome) : underPledge d s = some (upKey d s) := by
  cases hd : d s.name with
  | none => rw [hd] at h; exact absurd h (by simp)
  | some e => simp [underPledge, upKey, hd]

/-- Reference form of one stable descending insertion: place the new element
before the first strictly smaller key, after all ties. -/
def simpleInsert (k : α → ℚ) (c : α) : List α → List α
  | [] => [c]
  | e :: es => if k e < k c then c :: e :: es else e :: simpleInsert k c es

/-- Reference form of the whole sibling sort: left fold of stable
insertions starting from the empty list, exactly the loop shape of the
source. -/
def stableSortDesc (k : α → ℚ) (l : List α) : List α :=
  l.foldl (fun a c => simpleInsert k c a) []

@[simp] theorem pyListInsert_zero (x : α) (l : List α) :
    pyListInsert 0 x l = x :: l := by
  cases l <;> rfl

@[simp] theorem pyListInsert_succ_nil (n : ℕ) (x : α) :
    pyListInsert (n + 1) x [] = [x] := rfl

@[simp] theorem pyListInsert_succ_cons (n : ℕ) (x e : α) (es : List α) :
    pyListInsert (n + 1) x (e :: es) = e :: pyListInsert n x es := rfl

theorem pyListInsert_mem (x c : α) :
    ∀ l : List α, ∀ n : ℕ, x ∈ pyListInsert n c l ↔ x = c ∨ x ∈ l := by
  intro l
  induction l with
  | nil => intro n; cases n <;> simp
  | cons e es ih =>
      intro n
      cases n with
      | zero => simp
      | succ n =>
          rw [pyListInsert_succ_cons]
          simp only [List.mem_cons, ih n]
          tauto

theorem findInsertIdx_shift (key : α → Option ℚ) (u : ℚ) :
    ∀ l : List α, ∀ n : ℕ,
      findInsertIdx key u l n =
        (findInsertIdx key u l 0).map (fun i => i + n) := by
  intro l
  induction l with
  | nil => intro n; simp [findInsertIdx]
  | cons c2 rest ih =>
      intro n
      cases hk : key c2 with
      | none =>
          simp only [findInsertIdx, hk]
          exact ih n
      | some u2 =>
          by_cases hu : u2 < u
          · simp [findInsertIdx, hk, hu]
          · simp only [findInsertIdx, hk, if_neg hu]
            rw [ih (n + 1), ih 1]
            cases findInsertIdx key u rest 0 with
            | none => rfl
            | some i =>
                simp only [Option.map_some']
                all_goals congr 1
                all_goals omega

theorem pyInsertChild_total (key : α → Option ℚ) (k : α → ℚ) (c : α)
    (hc : key c = some (k c)) :
    ∀ acc : List α, (∀ x ∈ acc, key x = some (k x)) →
      pyInsertChild key acc c = some (simpleInsert k c acc) := by
  intro acc
  induction acc with
  | nil =>
      intro _
      simp [pyInsertChild, hc, findInsertIdx, simpleInsert]
  | cons e es ih =>
      intro hacc
      have he : key e = some (k e) := hacc e (by simp)
      have hx := ih (fun x hx => hacc x (by simp [hx]))
      simp only [pyInsertChild, hc, Option.some.injEq] at hx ⊢
      by_cases hu : k e < k c
      · simp [findInsertIdx, he, hu, simpleInsert]
      · simp only [findInsertIdx, he, if_neg hu]
        rw [findInsertIdx_shift key (k c) es 1]
        simp only [simpleInsert, if_neg hu]
        cases hf : findInsertIdx key (k c) es 0 with
        | none =>
            rw [hf] at hx
            simp only [Option.getD_none] at hx
            simp only [Option.map_none', Option.getD_none, List.length_cons,
              pyListInsert_succ_cons]
            rw [hx]
        | some i =>
            rw [hf] at hx
            simp only [Option.getD_some] at hx
            simp only [Option.map_some', Option.getD_some,
              pyListInsert_succ_cons]
            rw [hx]

theorem mem_simpleInsert (k : α → ℚ) (c x : α) :
    ∀ l : List α, x ∈ simpleInsert k c l ↔ x = c ∨ x ∈ l := by
  intro l
  induction l with
  | nil => simp [simpleInsert]
  | cons e es ih =>
      simp only [simpleInsert]
      by_cases hu : k e < k c
      · simp [hu]
      · simp only [if_neg hu, List.mem_cons, ih]
        tauto

theorem listFoldOpt_pyInsert_total (key : α → Option ℚ) (k : α → ℚ) :
    ∀ l acc : List α,
      (∀ x ∈ l, key x = some (k x)) → (∀ x ∈ acc, key x = some (k x)) →
      listFoldOpt (pyInsertChild key) acc l =
        some (l.foldl (fun a c => simpleInsert k c a) acc) := by
  intro l
  induction l with
  | nil =>
      intro acc _ _
      rw [listFoldOpt]
      simp
  | cons c cs ih =>
      intro acc hl hacc
      rw [listFoldOpt]
      rw [pyInsertChild_total key k c (hl c (by simp)) acc hacc]
      have hstep := ih (simpleInsert k c acc)
        (fun x hx => hl x (by simp [hx]))
        (by
          intro x hx
          rcases (mem_simpleInsert k c x acc).mp hx with rfl | hx
          · exact hl x (by simp)
          · exact hacc x hx)
      simp only [List.foldl_cons]
      exact hstep

theorem listFoldOpt_pyInsert_none (key : α → Option ℚ) :
    ∀ l acc : List α, (∃ x ∈ l, key x = none) →
      listFoldOpt (pyInsertChild key) acc l = none := by
  intro l
  induction l with
  | nil =>
      rintro acc ⟨x, hx, _⟩
      exact absurd hx (by simp)
  | cons c cs ih =>
      rintro acc ⟨x, hx, hnone⟩
      rw [listFoldOpt]
      rcases List.mem_cons.mp hx with rfl | hx
      · simp [pyInsertChild, hnone]
      · cases hcv : pyInsertChild key acc c with
        | none => rfl
        | some acc2 => exact ih acc2 ⟨x, hx, hnone⟩

theorem listFoldOpt_pyInsert_mem (key : α → Option ℚ) :
    ∀ l acc out : List α,
      listFoldOpt (pyInsertChild key) acc l = some out →
      ∀ x, (x ∈ acc ∨ x ∈ l) → x ∈ out := by
  intro l
  induction l with
  | nil =>
      intro acc out h x hx
      rw [listFoldOpt] at h
      cases h
      rcases hx with hx | hx
      · exact hx
      · exact absurd hx (by simp)
  | cons c cs ih =>
      intro acc out h x hx
      rw [listFoldOpt] at h
      cases hcv : pyInsertChild key acc c with
      | none => rw [hcv] at h; exact absurd h (by simp)
      | some acc2 =>
          rw [hcv] at h
          have hmem : ∀ y, (y ∈ acc ∨ y = c) → y ∈ acc2 := by
            intro y hy
            simp only [pyInsertChild] at hcv
            cases hk : key c with
            | none => rw [hk] at hcv; exact absurd hcv (by simp)
            | some u =>
                rw [hk] at hcv
                simp only [Option.some.injEq] at hcv
                subst hcv
                rw [pyListInsert_mem]
                tauto
          refine ih acc2 out h x ?_
          rcases hx with hx | hx
          · exact Or.inl (hmem x (Or.inl hx))
          · rcases List.mem_cons.mp hx with rfl | hx
            · exact Or.inl (hmem x (Or.inr rfl))
            · exact Or.inr hx

theorem simpleInsert_pairwise (k : α → ℚ) (c : α) :
    ∀ l : List α, l.Pairwise (fun a b => k b ≤ k a) →
      (simpleInsert k c l).Pairwise (fun a b => k b ≤ k a) := by
  intro l
  induction l with
  | nil =>
      intro _
      simp [simpleInsert]
  | cons e es ih =>
      intro hp
      rw [List.pairwise_cons] at hp
      obtain ⟨he, hes⟩ := hp
      simp only [simpleInsert]
      by_cases hu : k e < k c
      · rw [if_pos hu, List.pairwise_cons]
        refine ⟨?_, ?_⟩
        · intro x hx
          rcases List.mem_cons.mp hx with rfl | hx
          · exact le_of_lt hu
          · exact le_trans (he x hx) (le_of_lt hu)
        · rw [List.pairwise_cons]
          exact ⟨he, hes⟩
      · rw [if_neg hu, List.pairwise_cons]
        refine ⟨?_, ih hes⟩
        intro x hx
        rcases (mem_simpleInsert k c x es).mp hx with rfl | hx
        · exact le_of_not_lt hu
        · exact he x hx

theorem simpleInsert_filter (k : α → ℚ) (c : α) (v : ℚ) :
    ∀ l : List α, l.Pairwise (fun a b => k b ≤ k a) →
      (simpleInsert k c l).filter (fun x => decide (k x = v)) =
        l.filter (fun x => decide (k x = v)) ++
          if k c = v then [c] else [] := by
  intro l
  induction l with
  | nil =>
      intro _
      by_cases hv : k c = v <;> simp [simpleInsert, hv]
  | cons e es ih =>
      intro hp
      rw [List.pairwise_cons] at hp
      obtain ⟨he, hes⟩ := hp
      simp only [simpleInsert]
      by_cases hu : k e < k c
      · rw [if_pos hu]
        by_cases hv : k c = v
        · have hnone : ∀ x ∈ e :: es, ¬ (k x = v) := by
            intro x hx
            have hle : k x ≤ k e := by
              rcases List.mem_cons.mp hx with rfl | hx
              · exact le_refl _
              · exact he x hx
            intro hxv
            rw [hxv, ← hv] at hle
            exact absurd hu (not_lt_of_le hle)
          rw [List.filter_cons_of_pos (by simp [hv])]
          have h1 : (e :: es).filter (fun x => decide (k x = v)) = [] := by
            rw [List.filter_eq_nil_iff]
            intro x hx
            simp [hnone x hx]
          rw [h1]
          simp [hv]
        · rw [List.filter_cons_of_neg (by simp [hv])]
          simp [hv]
      · rw [if_neg hu]
        by_cases hev : k e = v
        · rw [List.filter_cons_of_pos (by simp [hev]),
            List.filter_cons_of_pos (by simp [hev]), ih hes,
            List.cons_append]
        · rw [List.filter_cons_of_neg (by simp [hev]),
            List.filter_cons_of_neg (by simp [hev]), ih hes]

theorem foldl_simpleInsert_char (k : α → ℚ) :
    ∀ l acc : List α, acc.Pairwise (fun a b => k b ≤ k a) →
      (l.foldl (fun a c => simpleInsert k c a) acc).Pairwise
          (fun a b => k b ≤ k a) ∧
        ∀ v : ℚ,
          (l.foldl (fun a c => simpleInsert k c a) acc).filter
              (fun x => decide (k x = v)) =
            acc.filter (fun x => decide (k x = v)) ++
              l.filter (fun x => decide (k x = v)) := by
  intro l
  induction l with
  | nil =>
      intro acc hacc
      simp [hacc]
  | cons c cs ih =>
      intro acc hacc
      simp only [List.foldl_cons]
      obtain ⟨hp, hf⟩ := ih (simpleInsert k c acc)
        (simpleInsert_pairwise k c acc hacc)
      refine ⟨hp, fun v => ?_⟩
      rw [hf v, simpleInsert_filter k c v acc hacc]
      by_cases hv : k c = v
      · rw [List.filter_cons_of_pos (by simp [hv])]
        simp [hv]
      · rw [List.filter_cons_of_neg (by simp [hv])]
        simp [hv]

theorem stableSortDesc_char (k : α → ℚ) (l : List α) :
    (stableSortDesc k l).Pairwise (fun a b => k b ≤ k a) ∧
      ∀ v : ℚ, (stableSortDesc k l).filter (fun x => decide (k x = v)) =
        l.filter (fun x => decide (k x = v)) := by
  obtain ⟨hp, hf⟩ := foldl_simpleInsert_char k l [] (by simp)
  exact ⟨hp, fun v => by simpa using hf v⟩

theorem mem_stableSortDesc (k : α → ℚ) (l : List α) (x : α) :
    x ∈ stableSortDesc k l → x ∈ l := by
  intro hx
  have := (stableSortDesc_char k l).2 (k x)
  have hxf : x ∈ (stableSortDesc k l).filter (fun y => decide (k y = k x)) := by
    rw [List.mem_filter]
    exact ⟨hx, by simp⟩
  rw [this] at hxf
  exact (List.mem_filter.mp hxf).1

/-! ## Hierarchical ordering predicate

The sorted-leaves contract of the specification: a leaf is its own singleton
result; for an inner node the children are put in an order that keeps, for
every key value, the original relative order (stability) and is non-increasing
in under-pledge, and the recursive results of the children are concatenated in
that order.  Leaves below different siblings are therefore never compared with
each other: only the sibling blocks are ordered. -/

inductive HierOrdered (k : Share → ℚ) : Share → List Share → Prop where
  | leaf {t : Share} (hc : t.children = []) : HierOrdered k t [t]
  | node {t : Share} {cs2 : List Share} {outs : List (List Share)}
      (hc : t.children ≠ [])
      (hfil : ∀ v : ℚ, cs2.filter (fun x => decide (k x = v)) =
              t.children.filter (fun x => decide (k x = v)))
      (hsorted : cs2.Pairwise (fun a b => k b ≤ k a))
      (houts : List.Forall₂ (HierOrdered k) cs2 outs) :
      HierOrdered k t outs.flatten

theorem sortBranch_leaf (d : HSDist) (t : Share) (hc : t.children = []) :
    Share.sortBranch d t = some [t] := by
  rw [Share.sortBranch]
  simp [hc]

theorem sortBranch_node_none (d : HSDist) (t : Share) (hc : t.children ≠ [])
    (hf : listFoldOpt (pyInsertChild (underPledge d)) [] t.children = none) :
    Share.sortBranch d t = none := by
  rw [Share.sortBranch]
  simp only [List.isEmpty_iff, hc, if_false]
  split
  · rfl
  · next cs2 heq =>
      rw [hf] at heq
      exact absurd heq (by simp)

theorem sortBranch_node_some (d : HSDist) (t : Share) (cs2 : List Share)
    (hc : t.children ≠ [])
    (hf : listFoldOpt (pyInsertChild (underPledge d)) [] t.children =
      some cs2) :
    Share.sortBranch d t = sortMany d cs2 := by
  rw [Share.sortBranch]
  simp only [List.isEmpty_iff, hc, if_false]
  split
  · next heq =>
      rw [hf] at heq
      exact absurd heq (by simp)
  · next cs3 heq =>
      rw [hf] at heq
      simp only [Option.some.injEq] at heq
      rw [heq]

theorem sortMany_nil (d : HSDist) : sortMany d [] = some [] := by
  rw [sortMany]

theorem sortMany_cons (d : HSDist) (c : Share) (cs : List Share) :
    sortMany d (c :: cs) =
      match Share.sortBranch d c with
      | none => none
      | some ls =>
          match sortMany d cs with
          | none => none
          | some rest => some (ls ++ rest) := by
  rw [sortMany]

theorem occurs_of_mem_children {s c t : Share} (h : Occurs s t)
    (hc : c ∈ s.children) : Occurs c t := by
  induction h with
  | refl => exact Occurs.child hc (Occurs.refl c)
  | @child c2 t2 hmem ho ih => exact Occurs.child hmem ih

theorem allNames_def (t : Share) :
    Share.allNames t = t.name :: allNamesList t.children := by
  rw [Share.allNames]

theorem allNamesList_nil : allNamesList [] = [] := by
  rw [allNamesList]

theorem allNamesList_cons (c : Share) (cs : List Share) :
    allNamesList (c :: cs) = Share.allNames c ++ allNamesList cs := by
  rw [allNamesList]

theorem mem_allNamesList (x : String) :
    ∀ l : List Share, x ∈ allNamesList l ↔ ∃ c ∈ l, x ∈ Share.allNames c := by
  intro l
  induction l with
  | nil =>
      rw [allNamesList_nil]
      simp
  | cons c cs ih =>
      rw [allNamesList_cons]
      simp only [List.mem_append, ih, List.mem_cons]
      constructor
      · rintro (h | ⟨c2, hc2, hx⟩)
        · exact ⟨c, Or.inl rfl, h⟩
        · exact ⟨c2, Or.inr hc2, hx⟩
      · rintro ⟨c2, hc2 | hc2, hx⟩
        · subst hc2; exact Or.inl hx
        · exact Or.inr ⟨c2, hc2, hx⟩

theorem occurs_name_mem {s t : Share} (h : Occurs s t) :
    s.name ∈ Share.allNames t := by
  induction h with
  | refl =>
      rw [allNames_def]
      simp
  | @child c2 t2 hmem ho ih =>
      rw [allNames_def]
      exact List.mem_cons_of_mem _
        ((mem_allNamesList _ _).mpr ⟨c2, hmem, ih⟩)

theorem sortMany_forall (d : HSDist) (k : Share → ℚ) :
    ∀ l : List Share,
      (∀ c ∈ l, ∃ o, Share.sortBranch d c = some o ∧ HierOrdered k c o) →
      ∃ outs : List (List Share), sortMany d l = some outs.flatten ∧
        List.Forall₂ (HierOrdered k) l outs := by
  intro l
  induction l with
  | nil =>
      intro _
      exact ⟨[], by rw [sortMany_nil]; rfl, List.Forall₂.nil⟩
  | cons c cs ih =>
      intro hl
      obtain ⟨o, ho, hh⟩ := hl c (by simp)
      obtain ⟨outs, hs, hfa⟩ := ih (fun x hx => hl x (by simp [hx]))
      refine ⟨o :: outs, ?_, List.Forall₂.cons hh hfa⟩
      rw [sortMany_cons, ho, hs]
      simp

theorem sortBranch_entries :
    ∀ t : Share, ∀ d : HSDist,
      (∀ s c : Share, Occurs s t → c ∈ s.children → (d c.name).isSome) →
      ∃ out, Share.sortBranch d t = some out ∧
        HierOrdered (upKey d) t out := by
  refine Share.my_induction _ (fun t iht => ?_)
  intro d hent
  by_cases hc : t.children = []
  · exact ⟨[t], sortBranch_leaf d t hc, HierOrdered.leaf hc⟩
  · have hkeys : ∀ x ∈ t.children, underPledge d x = some (upKey d x) :=
      fun x hx => underPledge_eq_upKey d x (hent t x (Occurs.refl t) hx)
    rw [sortBranch_node_some d t (stableSortDesc (upKey d) t.children) hc
      (listFoldOpt_pyInsert_total (underPledge d) (upKey d) t.children []
        hkeys (by simp))]
    have hsub : ∀ c ∈ stableSortDesc (upKey d) t.children, c ∈ t.children :=
      fun c hc2 => mem_stableSortDesc (upKey d) t.children c hc2
    have hrec : ∀ c ∈ stableSortDesc (upKey d) t.children,
        ∃ o, Share.sortBranch d c = some o ∧ HierOrdered (upKey d) c o := by
      intro c hc2
      refine iht c (hsub c hc2) d ?_
      intro s cc hocc hmem
      exact hent s cc (Occurs.child (hsub c hc2) hocc) hmem
    obtain ⟨outs, hsm, hfa⟩ :=
      sortMany_forall d (upKey d) (stableSortDesc (upKey d) t.children) hrec
    refine ⟨outs.flatten, hsm, ?_⟩
    exact HierOrdered.node hc (stableSortDesc_char (upKey d) t.children).2
      (stableSortDesc_char (upKey d) t.children).1 hfa

theorem sortMany_mem_none (d : HSDist) :
    ∀ l : List Share, (∃ c ∈ l, Share.sortBranch d c = none) →
      sortMany d l = none := by
  intro l
  induction l with
  | nil =>
      rintro ⟨c, hc, _⟩
      exact absurd hc (by simp)
  | cons c cs ih =>
      rintro ⟨x, hx, hnone⟩
      rw [sortMany_cons]
      rcases List.mem_cons.mp hx with rfl | hx
      · rw [hnone]
      · cases hcv : Share.sortBranch d c with
        | none => rfl
        | some ls => rw [ih ⟨x, hx, hnone⟩]

theorem sortBranch_missing_none :
    ∀ t : Share, ∀ d : HSDist,
      (∃ s c : Share, Occurs s t ∧ c ∈ s.children ∧ d c.name = none) →
      Share.sortBranch d t = none := by
  refine Share.my_induction _ (fun t iht => ?_)
  rintro d ⟨s, c, hocc, hcm, hnone⟩
  cases hocc with
  | refl =>
      have hc : t.children ≠ [] := by
        intro h0
        rw [h0] at hcm
        exact absurd hcm (by simp)
      exact sortBranch_node_none d t hc
        (listFoldOpt_pyInsert_none (underPledge d) t.children []
          ⟨c, hcm, by simp [underPledge, hnone]⟩)
  | @child c2 t0 hmem ho =>
      have hc : t.children ≠ [] := by
        intro h0
        rw [h0] at hmem
        exact absurd hmem (by simp)
      cases hf : listFoldOpt (pyInsertChild (underPledge d)) [] t.children with
      | none => exact sortBranch_node_none d t hc hf
      | some cs2 =>
          rw [sortBranch_node_some d t cs2 hc hf]
          have hc2 : c2 ∈ cs2 :=
            listFoldOpt_pyInsert_mem (underPledge d) t.children [] cs2 hf c2
              (Or.inr hmem)
          exact sortMany_mem_none d cs2
            ⟨c2, hc2, iht c2 hmem d ⟨s, c, ho, hcm, hnone⟩⟩

/-! ## Lemmas about get_hs_leave_distribution -/

@[simp] theorem HSDist.update_same (d : HSDist) (k : String) (v : HSEntry) :
    HSDist.update d k v k = some v := by
  simp [HSDist.update]

theorem HSDist.update_other (d : HSDist) (k k2 : String) (v : HSEntry)
    (h : k2 ≠ k) : HSDist.update d k v k2 = d k2 := by
  simp [HSDist.update, h]

/-- Total of the ignore rows, the separate ignore sum of the code. -/
def ignoreTotalOf (raw : List RawRow) : ℚ :=
  ((raw.filter (fun r => r.group = StatusGroup.ignore)).map RawRow.hs).sum

/-- Last ignore-row value for a share, if any. -/
def lastIgnore (raw : List RawRow) (g : String) : Option ℚ :=
  raw.foldl
    (fun a r => if r.gshare = g ∧ r.group = StatusGroup.ignore then some r.hs
                else a) none

theorem applyRawRow_dict (st : BuildState) (r : RawRow) :
    (applyRawRow st r).dict =
      HSDist.update st.dict r.gshare
        (setGroupVal ((st.dict r.gshare).getD emptyEntry) r.group r.hs) := by
  cases hg : r.group <;> simp [applyRawRow, hg]

theorem applyRawRow_totals (st : BuildState) (r : RawRow) :
    (applyRawRow st r).executingTotal =
      (if r.group = StatusGroup.executing then st.executingTotal + r.hs
       else st.executingTotal) ∧
    (applyRawRow st r).ignoreTotal =
      (if r.group = StatusGroup.ignore then st.ignoreTotal + r.hs
       else st.ignoreTotal) ∧
    (applyRawRow st r).queuedTotal =
      (if r.group = StatusGroup.queued then st.queuedTotal + r.hs
       else st.queuedTotal) := by
  cases hg : r.group <;> simp [applyRawRow, hg]

theorem foldl_applyRawRow_totals :
    ∀ raw : List RawRow, ∀ st : BuildState,
      (raw.foldl applyRawRow st).executingTotal =
        st.executingTotal + codeExecTotal raw ∧
      (raw.foldl applyRawRow st).ignoreTotal =
        st.ignoreTotal + ignoreTotalOf raw := by
  intro raw
  induction raw with
  | nil =>
      intro st
      simp [codeExecTotal, ignoreTotalOf]
  | cons r rest ih =>
      intro st
      simp only [List.foldl_cons]
      obtain ⟨he, hi⟩ := ih (applyRawRow st r)
      obtain ⟨he2, hi2, _⟩ := applyRawRow_totals st r
      constructor
      · rw [he, he2]
        cases hg : r.group <;>
          simp [codeExecTotal, hg, List.filter_cons] <;> ring
      · rw [hi, hi2]
        cases hg : r.group <;>
          simp [ignoreTotalOf, hg, List.filter_cons] <;> ring

theorem buildRawState_totals (raw : List RawRow) :
    (buildRawState raw).executingTotal = codeExecTotal raw ∧
      (buildRawState raw).ignoreTotal = ignoreTotalOf raw := by
  have := foldl_applyRawRow_totals raw ⟨fun _ => none, 0, 0, 0⟩
  simpa [buildRawState] using this

/-- Applying the per-share rows to an entry, last row winning per field. -/
def applyRowsE (rows : List RawRow) (e : HSEntry) : HSEntry :=
  rows.foldl (fun a r => setGroupVal a r.group r.hs) e

theorem foldl_applyRawRow_dict (g : String) :
    ∀ raw : List RawRow, ∀ st : BuildState,
      (raw.foldl applyRawRow st).dict g =
        (raw.filter (fun r => r.gshare = g)).foldl
          (fun cur r => some (setGroupVal (cur.getD emptyEntry) r.group r.hs))
          (st.dict g) := by
  intro raw
  induction raw with
  | nil => intro st; simp
  | cons r rest ih =>
      intro st
      simp only [List.foldl_cons]
      rw [ih (applyRawRow st r), applyRawRow_dict]
      by_cases hg : r.gshare = g
      · rw [List.filter_cons_of_pos (by simp [hg]), List.foldl_cons, hg,
          HSDist.update_same]
      · rw [List.filter_cons_of_neg (by simp [hg]),
          HSDist.update_other st.dict r.gshare g _ (fun h => hg h.symm)]

theorem applyRowsG_some (rows : List RawRow) :
    ∀ e : HSEntry,
      rows.foldl
          (fun cur r => some (setGroupVal (cur.getD emptyEntry) r.group r.hs))
          (some e) = some (applyRowsE rows e) := by
  induction rows with
  | nil => intro e; simp [applyRowsE]
  | cons r rest ih =>
      intro e
      simp only [List.foldl_cons, Option.getD_some]
      rw [ih]
      simp [applyRowsE]

theorem applyRowsG_none (rows : List RawRow) (hne : rows ≠ []) :
    rows.foldl
        (fun cur r => some (setGroupVal (cur.getD emptyEntry) r.group r.hs))
        none = some (applyRowsE rows emptyEntry) := by
  cases rows with
  | nil => exact absurd rfl hne
  | cons r rest =>
      simp only [List.foldl_cons, Option.getD_none]
      rw [applyRowsG_some]
      simp [applyRowsE]

theorem applyRowsE_fields (rows : List RawRow) :
    ∀ e : HSEntry,
      (applyRowsE rows e).pledged = e.pledged ∧
      (applyRowsE rows e).queued =
        rows.foldl
          (fun a r => if r.group = StatusGroup.queued then r.hs else a)
          e.queued ∧
      (applyRowsE rows e).executing =
        rows.foldl
          (fun a r => if r.group = StatusGroup.executing then r.hs else a)
          e.executing ∧
      (applyRowsE rows e).ignoreVal =
        rows.foldl
          (fun a r => if r.group = StatusGroup.ignore then some r.hs else a)
          e.ignoreVal := by
  induction rows with
  | nil => intro e; simp [applyRowsE]
  | cons r rest ih =>
      intro e
      have hstep : applyRowsE (r :: rest) e =
          applyRowsE rest (setGroupVal e r.group r.hs) := by
        simp [applyRowsE]
      rw [hstep]
      obtain ⟨hp, hq, he2, hi⟩ := ih (setGroupVal e r.group r.hs)
      cases hg : r.group <;>
        simp only [List.foldl_cons, hg, setGroupVal] at hp hq he2 hi ⊢ <;>
        simp [hp, hq, he2, hi]

theorem hsentry_fields_eq (e1 e2 : HSEntry) (h1 : e1.pledged = e2.pledged)
    (h2 : e1.queued = e2.queued) (h3 : e1.executing = e2.executing)
    (h4 : e1.ignoreVal = e2.ignoreVal) : e1 = e2 := by
  cases e1
  cases e2
  simp only at h1 h2 h3 h4
  simp [h1, h2, h3, h4]

theorem foldl_if_filter (g : String) (sg : StatusGroup) :
    ∀ raw : List RawRow, ∀ a : ℚ,
      (raw.filter (fun r => r.gshare = g)).foldl
          (fun a r => if r.group = sg then r.hs else a) a =
        raw.foldl
          (fun a r => if r.gshare = g ∧ r.group = sg then r.hs else a) a := by
  intro raw
  induction raw with
  | nil => intro a; simp
  | cons r rest ih =>
      intro a
      by_cases hg : r.gshare = g
      · rw [List.filter_cons_of_pos (by simp [hg])]
        simp only [List.foldl_cons]
        by_cases hs : r.group = sg
        · rw [if_pos hs, if_pos ⟨hg, hs⟩, ih]
        · rw [if_neg hs, if_neg (by tauto), ih]
      · rw [List.filter_cons_of_neg (by simp [hg])]
        simp only [List.foldl_cons]
        rw [if_neg (by tauto), ih]

theorem foldl_if_filter_ign (g : String) :
    ∀ raw : List RawRow, ∀ a : Option ℚ,
      (raw.filter (fun r => r.gshare = g)).foldl
          (fun a r => if r.group = StatusGroup.ignore then some r.hs else a)
          a =
        raw.foldl
          (fun a r =>
            if r.gshare = g ∧ r.group = StatusGroup.ignore then some r.hs
            else a) a := by
  intro raw
  induction raw with
  | nil => intro a; simp
  | cons r rest ih =>
      intro a
      by_cases hg : r.gshare = g
      · rw [List.filter_cons_of_pos (by simp [hg])]
        simp only [List.foldl_cons]
        by_cases hs : r.group = StatusGroup.ignore
        · rw [if_pos hs, if_pos ⟨hg, hs⟩, ih]
        · rw [if_neg hs, if_neg (by tauto), ih]
      · rw [List.filter_cons_of_neg (by simp [hg])]
        simp only [List.foldl_cons]
        rw [if_neg (by tauto), ih]

theorem buildRawState_dict (raw : List RawRow) (g : String) :
    (buildRawState raw).dict g =
      if raw.filter (fun r => r.gshare = g) = [] then none
      else
        some ⟨0, lastVal raw g StatusGroup.queued,
          lastVal raw g StatusGroup.executing, lastIgnore raw g⟩ := by
  have hbase : (buildRawState raw).dict g =
      (raw.filter (fun r => r.gshare = g)).foldl
        (fun cur r => some (setGroupVal (cur.getD emptyEntry) r.group r.hs))
        none := by
    have := foldl_applyRawRow_dict g raw ⟨fun _ => none, 0, 0, 0⟩
    simpa [buildRawState] using this
  by_cases hf : raw.filter (fun r => r.gshare = g) = []
  · rw [if_pos hf, hbase, hf]
    simp
  · rw [if_neg hf, hbase, applyRowsG_none _ hf]
    refine congrArg some ?_
    obtain ⟨hp, hq, he, hi⟩ :=
      applyRowsE_fields (raw.filter (fun r => r.gshare = g)) emptyEntry
    refine hsentry_fields_eq _ _ ?_ ?_ ?_ ?_
    · rw [hp]; rfl
    · rw [hq]
      show _ = lastVal raw g StatusGroup.queued
      rw [lastVal, ← foldl_if_filter g StatusGroup.queued raw 0]
      rfl
    · rw [he]
      show _ = lastVal raw g StatusGroup.executing
      rw [lastVal, ← foldl_if_filter g StatusGroup.executing raw 0]
      rfl
    · rw [hi]
      show _ = lastIgnore raw g
      rw [lastIgnore, ← foldl_if_filter_ign g raw none]
      rfl

theorem pledgedStep_other (total : ℚ) (d : HSDist) (s : Share) (n : String)
    (h : n ≠ s.name) : pledgedStep total d s n = d n := by
  simp only [pledgedStep]
  exact HSDist.update_other _ _ _ _ h

theorem pledgedStep_same (total : ℚ) (d : HSDist) (s : Share) :
    pledgedStep total d s s.name =
      some { (d s.name).getD emptyEntry with
             pledged := total * s.value / 100 } := by
  simp [pledgedStep]

theorem pledgedFold_char (total : ℚ) :
    ∀ leaves : List Share, ∀ d : HSDist,
      (leaves.map Share.name).Nodup →
      (∀ l ∈ leaves, (leaves.foldl (pledgedStep total) d) l.name =
        some { (d l.name).getD emptyEntry with
               pledged := total * l.value / 100 }) ∧
      (∀ n : String, (∀ l ∈ leaves, l.name ≠ n) →
        (leaves.foldl (pledgedStep total) d) n = d n) := by
  intro leaves
  induction leaves with
  | nil =>
      intro d _
      constructor
      · intro l hl
        exact absurd hl (by simp)
      · intro n _
        simp
  | cons l0 rest ih =>
      intro d hnd
      rw [List.map_cons, List.nodup_cons] at hnd
      obtain ⟨hn0, hnd2⟩ := hnd
      have hneq : ∀ l ∈ rest, l.name ≠ l0.name := by
        intro l hl heq
        exact hn0 (heq ▸ List.mem_map_of_mem Share.name hl)
      obtain ⟨h1, h2⟩ := ih (pledgedStep total d l0) hnd2
      simp only [List.foldl_cons]
      constructor
      · intro l hl
        rcases List.mem_cons.mp hl with rfl | hl
        · rw [h2 l.name (hneq)]
          exact pledgedStep_same total d l
        · rw [h1 l hl, pledgedStep_other total d l0 l.name (hneq l hl)]
      · intro n hn
        rw [h2 n (fun l hl => hn l (by simp [hl]))]
        exact pledgedStep_other total d l0 n
          (fun h => hn l0 (by simp) h.symm)

theorem pledgedFold_ignore (total : ℚ) :
    ∀ leaves : List Share, ∀ d : HSDist, ∀ g : String,
      (∃ e, d g = some e ∧ e.ignoreVal.isSome) →
      ∃ e, (leaves.foldl (pledgedStep total) d) g = some e ∧
        e.ignoreVal.isSome := by
  intro leaves
  induction leaves with
  | nil =>
      intro d g h
      simpa using h
  | cons l0 rest ih =>
      rintro d g ⟨e, he, hi⟩
      simp only [List.foldl_cons]
      refine ih (pledgedStep total d l0) g ?_
      by_cases hg : g = l0.name
      · subst hg
        rw [pledgedStep_same]
        refine ⟨_, rfl, ?_⟩
        rw [he]
        simpa using hi
      · rw [pledgedStep_other total d l0 g hg]
        exact ⟨e, he, hi⟩

theorem lastIgnore_isSome_aux (g : String) :
    ∀ raw : List RawRow, ∀ a : Option ℚ,
      (a.isSome ∨ ∃ r ∈ raw, r.gshare = g ∧ r.group = StatusGroup.ignore) →
      (raw.foldl
        (fun a r =>
          if r.gshare = g ∧ r.group = StatusGroup.ignore then some r.hs
          else a) a).isSome := by
  intro raw
  induction raw with
  | nil =>
      intro a h
      rcases h with h | ⟨r, hr, _⟩
      · simpa using h
      · exact absurd hr (by simp)
  | cons r rest ih =>
      intro a h
      simp only [List.foldl_cons]
      by_cases hc : r.gshare = g ∧ r.group = StatusGroup.ignore
      · rw [if_pos hc]
        exact ih _ (Or.inl (by simp))
      · rw [if_neg hc]
        rcases h with h | ⟨r2, hr2, hg2⟩
        · exact ih _ (Or.inl h)
        · rcases List.mem_cons.mp hr2 with rfl | hr2
          · exact absurd hg2 hc
          · exact ih _ (Or.inr ⟨r2, hr2, hg2⟩)

theorem lastIgnore_isSome (g : String) (raw : List RawRow)
    (h : ∃ r ∈ raw, r.gshare = g ∧ r.group = StatusGroup.ignore) :
    (lastIgnore raw g).isSome := by
  exact lastIgnore_isSome_aux g raw none (Or.inr h)

theorem lastVal_empty_filter (raw : List RawRow) (g : String)
    (sg : StatusGroup) (hf : raw.filter (fun r => r.gshare = g) = []) :
    lastVal raw g sg = 0 := by
  rw [lastVal, ← foldl_if_filter g sg raw 0, hf]
  rfl

theorem lastIgnore_empty_filter (raw : List RawRow) (g : String)
    (hf : raw.filter (fun r => r.gshare = g) = []) :
    lastIgnore raw g = none := by
  rw [lastIgnore, ← foldl_if_filter_ign g raw none, hf]
  rfl

/-- The leaf-level dictionary at the name of a leaf from the list: queued and
executing are the last matching row values, pledged is the executing total
over all rows scaled by the weight, and a last ignore row is kept under the
ignore key. -/
theorem getHsLeaveDistribution_at_leaf (leaves : List Share)
    (raw : List RawRow) (hnd : (leaves.map Share.name).Nodup) :
    ∀ l ∈ leaves,
      getHsLeaveDistribution leaves raw l.name =
        some ⟨codeExecTotal raw * l.value / 100,
          lastVal raw l.name StatusGroup.queued,
          lastVal raw l.name StatusGroup.executing,
          lastIgnore raw l.name⟩ := by
  intro l hl
  obtain ⟨h1, _⟩ := pledgedFold_char (buildRawState raw).executingTotal
    leaves (buildRawState raw).dict hnd
  have hx := h1 l hl
  rw [getHsLeaveDistribution]
  rw [hx]
  refine congrArg some ?_
  rw [buildRawState_dict raw l.name]
  obtain ⟨htot, _⟩ := buildRawState_totals raw
  by_cases hf : raw.filter (fun r => r.gshare = l.name) = []
  · rw [if_pos hf]
    rw [lastVal_empty_filter raw l.name _ hf,
      lastVal_empty_filter raw l.name _ hf,
      lastIgnore_empty_filter raw l.name hf]
    refine hsentry_fields_eq _ _ ?_ ?_ ?_ ?_ <;> simp [emptyEntry, htot]
  · rw [if_neg hf]
    refine hsentry_fields_eq _ _ ?_ ?_ ?_ ?_ <;> simp [htot]

/-- A name that is neither a leaf name nor a raw share name is absent from
the leaf-level dictionary. -/
theorem pledgedFold_other (total : ℚ) :
    ∀ leaves : List Share, ∀ d : HSDist, ∀ n : String,
      (∀ l ∈ leaves, l.name ≠ n) →
      (leaves.foldl (pledgedStep total) d) n = d n := by
  intro leaves
  induction leaves with
  | nil => intro d n _; simp
  | cons l0 rest ih =>
      intro d n hn
      simp only [List.foldl_cons]
      rw [ih (pledgedStep total d l0) n (fun l hl => hn l (by simp [hl]))]
      exact pledgedStep_other total d l0 n (fun h => hn l0 (by simp) h.symm)

theorem getHsLeaveDistribution_absent (leaves : List Share)
    (raw : List RawRow) (n : String)
    (hleaf : ∀ l ∈ leaves, l.name ≠ n)
    (hraw : raw.filter (fun r => r.gshare = n) = []) :
    getHsLeaveDistribution leaves raw n = none := by
  rw [getHsLeaveDistribution]
  rw [pledgedFold_other (buildRawState raw).executingTotal leaves
    (buildRawState raw).dict n hleaf]
  rw [buildRawState_dict raw n, if_pos hraw]

/-! ## Lemmas about aggregate_hs_distribution -/

/-- What a leaf read of the dictionary yields during aggregation. -/
def leafTripleOf (d : HSDist) (s : Share) : Triple :=
  match d s.name with
  | some e => ⟨e.executing, e.queued, e.pledged⟩
  | none => ⟨0, 0, 0⟩

/-! Sum of the dictionary triples over the leaves of a subtree, the value the
aggregation pass computes for every node. -/

mutual

def subtreeSum (d : HSDist) (t : Share) : Triple :=
  if t.children.isEmpty then leafTripleOf d t
  else subtreeSumList d t.children
termination_by sizeOf t
decreasing_by exact Share.sizeOf_children_lt t

def subtreeSumList (d : HSDist) (l : List Share) : Triple :=
  match l with
  | [] => ⟨0, 0, 0⟩
  | c :: cs => (subtreeSum d c).add (subtreeSumList d cs)
termination_by sizeOf l
decreasing_by
  all_goals simp only [List.cons.sizeOf_spec]
  all_goals omega

end

/-! Names of the nodes with children, the keys the aggregation pass writes. -/

mutual

def internalNames (t : Share) : List String :=
  if t.children.isEmpty then [] else t.name :: internalNamesList t.children
termination_by sizeOf t
decreasing_by exact Share.sizeOf_children_lt t

def internalNamesList (l : List Share) : List String :=
  match l with
  | [] => []
  | c :: cs => internalNames c ++ internalNamesList cs
termination_by sizeOf l
decreasing_by
  all_goals simp only [List.cons.sizeOf_spec]
  all_goals omega

end

@[simp] theorem Triple.add_zero (a : Triple) : a.add ⟨0, 0, 0⟩ = a := by
  cases a
  simp [Triple.add]

@[simp] theorem Triple.zero_add (a : Triple) : Triple.add ⟨0, 0, 0⟩ a = a := by
  cases a
  simp [Triple.add]

theorem subtreeSum_leaf (d : HSDist) (t : Share) (hc : t.children = []) :
    subtreeSum d t = leafTripleOf d t := by
  rw [subtreeSum]
  simp [hc]

theorem subtreeSum_node (d : HSDist) (t : Share) (hc : t.children ≠ []) :
    subtreeSum d t = subtreeSumList d t.children := by
  rw [subtreeSum]
  simp [hc]

theorem subtreeSumList_nil (d : HSDist) : subtreeSumList d [] = ⟨0, 0, 0⟩ := by
  rw [subtreeSumList]

theorem subtreeSumList_cons (d : HSDist) (c : Share) (cs : List Share) :
    subtreeSumList d (c :: cs) =
      (subtreeSum d c).add (subtreeSumList d cs) := by
  rw [subtreeSumList]

theorem internalNames_leaf (t : Share) (hc : t.children = []) :
    internalNames t = [] := by
  rw [internalNames]
  simp [hc]

theorem internalNames_node (t : Share) (hc : t.children ≠ []) :
    internalNames t = t.name :: internalNamesList t.children := by
  rw [internalNames]
  simp [hc]

theorem internalNamesList_nil : internalNamesList [] = [] := by
  rw [internalNamesList]

theorem internalNamesList_cons (c : Share) (cs : List Share) :
    internalNamesList (c :: cs) =
      internalNames c ++ internalNamesList cs := by
  rw [internalNamesList]

theorem aggregate_leaf (t : Share) (d : HSDist) (hc : t.children = []) :
    Share.aggregate t d = (leafTripleOf d t, d) := by
  rw [Share.aggregate]
  simp only [List.isEmpty_iff, hc, if_pos]
  cases hn : d t.name <;> simp [leafTripleOf, hn]

theorem aggregate_node (t : Share) (d : HSDist) (hc : t.children ≠ []) :
    Share.aggregate t d =
      ((aggregateList t.children (⟨0, 0, 0⟩, d)).1,
        HSDist.update (aggregateList t.children (⟨0, 0, 0⟩, d)).2 t.name
          ⟨(aggregateList t.children (⟨0, 0, 0⟩, d)).1.pledged,
           (aggregateList t.children (⟨0, 0, 0⟩, d)).1.queued,
           (aggregateList t.children (⟨0, 0, 0⟩, d)).1.executing, none⟩) := by
  rw [Share.aggregate]
  simp [hc]

theorem aggregateList_nil (st : Triple × HSDist) :
    aggregateList [] st = st := by
  rw [aggregateList]

theorem aggregateList_cons (c : Share) (cs : List Share)
    (st : Triple × HSDist) :
    aggregateList (c :: cs) st =
      aggregateList cs
        (st.1.add (Share.aggregate c st.2).1, (Share.aggregate c st.2).2) := by
  rw [aggregateList]

theorem mem_internalNamesList (x : String) :
    ∀ l : List Share,
      x ∈ internalNamesList l ↔ ∃ c ∈ l, x ∈ internalNames c := by
  intro l
  induction l with
  | nil =>
      rw [internalNamesList_nil]
      simp
  | cons c cs ih =>
      rw [internalNamesList_cons]
      simp only [List.mem_append, ih, List.mem_cons]
      constructor
      · rintro (h | ⟨c2, hc2, hx⟩)
        · exact ⟨c, Or.inl rfl, h⟩
        · exact ⟨c2, Or.inr hc2, hx⟩
      · rintro ⟨c2, hc2 | hc2, hx⟩
        · subst hc2; exact Or.inl hx
        · exact Or.inr ⟨c2, hc2, hx⟩

theorem mem_internalNames :
    ∀ t : Share, ∀ x : String,
      x ∈ internalNames t →
        ∃ s : Share, Occurs s t ∧ s.children ≠ [] ∧ s.name = x := by
  refine Share.my_induction _ (fun t iht => ?_)
  intro x hx
  by_cases hc : t.children = []
  · rw [internalNames_leaf t hc] at hx
    exact absurd hx (by simp)
  · rw [internalNames_node t hc] at hx
    rcases List.mem_cons.mp hx with rfl | hx
    · exact ⟨t, Occurs.refl t, hc, rfl⟩
    · obtain ⟨c, hcm, hxc⟩ := (mem_internalNamesList x t.children).mp hx
      obtain ⟨s, hocc, hsc, hsn⟩ := iht c hcm x hxc
      exact ⟨s, Occurs.child hcm hocc, hsc, hsn⟩

theorem Triple.add_assoc (a b c : Triple) :
    (a.add b).add c = a.add (b.add c) := by
  cases a
  cases b
  cases c
  simp [Triple.add]
  refine ⟨by ring, by ring, by ring⟩

theorem allNamesList_nodup_part :
    ∀ cs : List Share, (allNamesList cs).Nodup →
      ∀ c ∈ cs, (Share.allNames c).Nodup := by
  intro cs
  induction cs with
  | nil =>
      intro _ c hc
      exact absurd hc (by simp)
  | cons c0 rest ih =>
      intro hnd c hc
      rw [allNamesList_cons, List.nodup_append] at hnd
      obtain ⟨h1, h2, _⟩ := hnd
      rcases List.mem_cons.mp hc with rfl | hc
      · exact h1
      · exact ih h2 c hc

theorem internalNames_subset_allNames :
    ∀ t : Share, ∀ x : String, x ∈ internalNames t → x ∈ Share.allNames t := by
  intro t x hx
  obtain ⟨s, hocc, _, hn⟩ := mem_internalNames t x hx
  exact hn ▸ occurs_name_mem hocc

theorem internalNamesList_subset :
    ∀ cs : List Share, ∀ x : String,
      x ∈ internalNamesList cs → x ∈ allNamesList cs := by
  intro cs x hx
  obtain ⟨c, hc, hxc⟩ := (mem_internalNamesList x cs).mp hx
  exact (mem_allNamesList x cs).mpr ⟨c, hc, internalNames_subset_allNames c x hxc⟩

theorem allNames_occurs_subset {s t : Share} (h : Occurs s t) :
    ∀ x ∈ Share.allNames s, x ∈ Share.allNames t := by
  induction h with
  | refl => exact fun x hx => hx
  | @child c2 t2 hmem ho ih =>
      intro x hx
      rw [allNames_def]
      exact List.mem_cons_of_mem _
        ((mem_allNamesList x t2.children).mpr ⟨c2, hmem, ih x hx⟩)

theorem allNamesList_same_part :
    ∀ cs : List Share, (allNamesList cs).Nodup →
      ∀ c1 ∈ cs, ∀ c2 ∈ cs, ∀ x : String,
        x ∈ Share.allNames c1 → x ∈ Share.allNames c2 → c1 = c2 := by
  intro cs
  induction cs with
  | nil =>
      intro _ c1 hc1
      exact absurd hc1 (by simp)
  | cons c0 rest ih =>
      intro hnd c1 hc1 c2 hc2 x hx1 hx2
      rw [allNamesList_cons, List.nodup_append] at hnd
      obtain ⟨h1, h2, hdisj⟩ := hnd
      rcases List.mem_cons.mp hc1 with he1 | hm1
      · rcases List.mem_cons.mp hc2 with he2 | hm2
        · rw [he1, he2]
        · rw [he1] at hx1
          exact absurd ((mem_allNamesList x rest).mpr ⟨c2, hm2, hx2⟩)
            (hdisj hx1)
      · rcases List.mem_cons.mp hc2 with he2 | hm2
        · rw [he2] at hx2
          exact absurd ((mem_allNamesList x rest).mpr ⟨c1, hm1, hx1⟩)
            (hdisj hx2)
        · exact ih h2 c1 hm1 c2 hm2 x hx1 hx2

theorem occurs_same_name_eq :
    ∀ t : Share, (Share.allNames t).Nodup →
      ∀ s1 s2 : Share, Occurs s1 t → Occurs s2 t →
        s1.name = s2.name → s1 = s2 := by
  refine Share.my_induction _ (fun t iht => ?_)
  intro hnd s1 s2 ho1 ho2 hn
  rw [allNames_def, List.nodup_cons] at hnd
  obtain ⟨hnmem, hnd2⟩ := hnd
  cases ho1 with
  | refl =>
      cases ho2 with
      | refl => rfl
      | @child c2 t2 hmem ho =>
          exact absurd ((mem_allNamesList s2.name t.children).mpr
            ⟨c2, hmem, occurs_name_mem ho⟩) (hn ▸ hnmem)
  | @child c1 t1 hmem1 hoc1 =>
      cases ho2 with
      | refl =>
          exact absurd ((mem_allNamesList s1.name t.children).mpr
            ⟨c1, hmem1, occurs_name_mem hoc1⟩) (hn ▸ hnmem)
      | @child c2 t2 hmem2 hoc2 =>
          have hceq : c1 = c2 :=
            allNamesList_same_part t.children hnd2 c1 hmem1 c2 hmem2 s1.name
              (occurs_name_mem hoc1) (hn ▸ occurs_name_mem hoc2)
          subst hceq
          exact iht c1 hmem1 (allNamesList_nodup_part t.children hnd2 c1 hmem1)
            s1 s2 hoc1 hoc2 hn

theorem subtreeSum_congr :
    ∀ t : Share, ∀ d d2 : HSDist,
      (∀ x ∈ dfsLeaves t, d2 x.name = d x.name) →
      subtreeSum d2 t = subtreeSum d t := by
  refine Share.my_induction _ (fun t iht => ?_)
  intro d d2 hag
  by_cases hc : t.children = []
  · rw [subtreeSum_leaf d t hc, subtreeSum_leaf d2 t hc]
    have := hag t (by rw [dfsLeaves]; simp [hc])
    simp [leafTripleOf, this]
  · rw [subtreeSum_node d t hc, subtreeSum_node d2 t hc]
    have hlist : ∀ cs : List Share,
        (∀ c ∈ cs, ∀ da db : HSDist,
          (∀ x ∈ dfsLeaves c, db x.name = da x.name) →
          subtreeSum db c = subtreeSum da c) →
        (∀ c ∈ cs, ∀ x ∈ dfsLeaves c, d2 x.name = d x.name) →
        subtreeSumList d2 cs = subtreeSumList d cs := by
      intro cs
      induction cs with
      | nil => intro _ _; rw [subtreeSumList_nil, subtreeSumList_nil]
      | cons c rest ihl =>
          intro hih hag2
          rw [subtreeSumList_cons, subtreeSumList_cons]
          rw [hih c (by simp) d d2 (hag2 c (by simp)),
            ihl (fun x hx => hih x (by simp [hx]))
              (fun x hx => hag2 x (by simp [hx]))]
    refine hlist t.children iht ?_
    intro c hcm x hx
    refine hag x ?_
    rw [dfsLeaves]
    simp only [List.isEmpty_iff, hc, if_neg, if_false]
    exact (mem_dfsLeavesList x t.children).mpr ⟨c, hcm, hx⟩

theorem aggregateList_char :
    ∀ cs : List Share,
      (∀ c ∈ cs, (Share.allNames c).Nodup → ∀ d : HSDist,
        (Share.aggregate c d).1 = subtreeSum d c ∧
        (∀ n, n ∉ internalNames c → (Share.aggregate c d).2 n = d n) ∧
        (∀ s, Occurs s c → s.children ≠ [] →
          (Share.aggregate c d).2 s.name =
            some ⟨(subtreeSum d s).pledged, (subtreeSum d s).queued,
              (subtreeSum d s).executing, none⟩)) →
      (allNamesList cs).Nodup →
      ∀ d : HSDist, ∀ acc : Triple,
        (aggregateList cs (acc, d)).1 = acc.add (subtreeSumList d cs) ∧
        (∀ n, n ∉ internalNamesList cs →
          (aggregateList cs (acc, d)).2 n = d n) ∧
        (∀ s, (∃ c ∈ cs, Occurs s c) → s.children ≠ [] →
          (aggregateList cs (acc, d)).2 s.name =
            some ⟨(subtreeSum d s).pledged, (subtreeSum d s).queued,
              (subtreeSum d s).executing, none⟩) := by
  intro cs
  induction cs with
  | nil =>
      intro _ _ d acc
      rw [aggregateList_nil]
      refine ⟨by rw [subtreeSumList_nil]; simp, fun n _ => rfl, ?_⟩
      rintro s ⟨c, hc, _⟩
      exact absurd hc (by simp)
  | cons c rest ih =>
      intro hih hnd d acc
      rw [allNamesList_cons, List.nodup_append] at hnd
      obtain ⟨hn1, hn2, hdisj⟩ := hnd
      obtain ⟨hA1, hA2, hA3⟩ := hih c (by simp) hn1 d
      rw [aggregateList_cons]
      simp only
      obtain ⟨hB1, hB2, hB3⟩ :=
        ih (fun x hx hnx => hih x (by simp [hx]) hnx) hn2
          (Share.aggregate c d).2 (acc.add (Share.aggregate c d).1)
      have hout : ∀ x : String, x ∈ allNamesList rest →
          (Share.aggregate c d).2 x = d x := by
        intro x hx
        refine hA2 x ?_
        intro hix
        exact hdisj (internalNames_subset_allNames c x hix) hx
      have hsums : subtreeSumList (Share.aggregate c d).2 rest =
          subtreeSumList d rest := by
        have hlist : ∀ l : List Share,
            (∀ c2 ∈ l, ∀ x ∈ Share.allNames c2, x ∈ allNamesList rest) →
            subtreeSumList (Share.aggregate c d).2 l =
              subtreeSumList d l := by
          intro l
          induction l with
          | nil => intro _; rw [subtreeSumList_nil, subtreeSumList_nil]
          | cons c2 r2 ihl =>
              intro hsub
              rw [subtreeSumList_cons, subtreeSumList_cons]
              rw [subtreeSum_congr c2 d (Share.aggregate c d).2
                  (fun x hx => hout x.name
                    (hsub c2 (by simp) x.name
                      (occurs_name_mem ((mem_dfsLeaves c2 x).mp hx).1))),
                ihl (fun x hx => hsub x (by simp [hx]))]
        exact hlist rest
          (fun c2 hc2 x hx => (mem_allNamesList x rest).mpr ⟨c2, hc2, hx⟩)
      refine ⟨?_, ?_, ?_⟩
      · rw [hB1, hA1, hsums, subtreeSumList_cons, Triple.add_assoc]
      · intro n hn
        rw [internalNamesList_cons] at hn
        simp only [List.mem_append, not_or] at hn
        rw [hB2 n hn.2]
        exact hA2 n hn.1
      · rintro s ⟨c0, hc0, ho⟩ hsc
        rcases List.mem_cons.mp hc0 with he | hm
        · rw [he] at ho
          have hsn : s.name ∈ Share.allNames c := occurs_name_mem ho
          have hni : s.name ∉ internalNamesList rest := by
            intro hmem
            exact hdisj hsn (internalNamesList_subset rest s.name hmem)
          rw [hB2 s.name hni]
          exact hA3 s ho hsc
        · have := hB3 s ⟨c0, hm, ho⟩ hsc
          rw [this]
          have hagree : subtreeSum (Share.aggregate c d).2 s =
              subtreeSum d s := by
            refine subtreeSum_congr s d (Share.aggregate c d).2 ?_
            intro x hx
            refine hout x.name ?_
            refine (mem_allNamesList x.name rest).mpr ⟨c0, hm, ?_⟩
            exact allNames_occurs_subset ho x.name
              (occurs_name_mem ((mem_dfsLeaves s x).mp hx).1)
          rw [hagree]

theorem aggregate_char :
    ∀ t : Share, (Share.allNames t).Nodup → ∀ d : HSDist,
      (Share.aggregate t d).1 = subtreeSum d t ∧
      (∀ n, n ∉ internalNames t → (Share.aggregate t d).2 n = d n) ∧
      (∀ s, Occurs s t → s.children ≠ [] →
        (Share.aggregate t d).2 s.name =
          some ⟨(subtreeSum d s).pledged, (subtreeSum d s).queued,
            (subtreeSum d s).executing, none⟩) := by
  refine Share.my_induction _ (fun t iht => ?_)
  intro hnd d
  by_cases hc : t.children = []
  · rw [aggregate_leaf t d hc]
    refine ⟨(subtreeSum_leaf d t hc).symm, fun n _ => rfl, ?_⟩
    intro s hocc hsc
    cases hocc with
    | refl => exact absurd hc hsc
    | @child c2 t2 hmem ho =>
        rw [hc] at hmem
        exact absurd hmem (by simp)
  · rw [allNames_def, List.nodup_cons] at hnd
    obtain ⟨hnmem, hnd2⟩ := hnd
    rw [aggregate_node t d hc]
    obtain ⟨hL1, hL2, hL3⟩ :=
      aggregateList_char t.children (fun x hx => iht x hx) hnd2 d ⟨0, 0, 0⟩
    simp only at hL1 hL2 hL3 ⊢
    rw [hL1, Triple.zero_add]
    refine ⟨?_, ?_, ?_⟩
    · exact (subtreeSum_node d t hc).symm
    · intro n hn
      rw [internalNames_node t hc] at hn
      simp only [List.mem_cons, not_or] at hn
      rw [HSDist.update_other _ _ _ _ hn.1]
      exact hL2 n hn.2
    · intro s hocc hsc
      cases hocc with
      | refl =>
          rw [HSDist.update_same]
          rw [subtreeSum_node d t hc]
      | @child c2 t2 hmem ho =>
          have hsn : s.name ∈ allNamesList t.children :=
            (mem_allNamesList s.name t.children).mpr
              ⟨c2, hmem, occurs_name_mem ho⟩
          rw [HSDist.update_other _ _ _ _
            (fun h => hnmem (by rw [← h]; exact hsn))]
          exact hL3 s ⟨c2, hmem, ho⟩ hsc

theorem occurs_trans {a b c : Share} (h1 : Occurs a b) (h2 : Occurs b c) :
    Occurs a c := by
  induction h2 with
  | refl => exact h1
  | @child c2 t2 hmem ho ih => exact Occurs.child hmem ih

theorem refTriple_leaf (total : ℚ) (raw : List RawRow) (s : Share)
    (hc : s.children = []) :
    refTriple total raw s =
      ⟨lastVal raw s.name StatusGroup.executing,
       lastVal raw s.name StatusGroup.queued,
       total * s.value / 100⟩ := by
  rw [refTriple]
  simp [hc]

theorem refTriple_node (total : ℚ) (raw : List RawRow) (s : Share)
    (hc : s.children ≠ []) :
    refTriple total raw s = refTripleList total raw s.children := by
  rw [refTriple]
  simp [hc]

theorem refTripleList_nil (total : ℚ) (raw : List RawRow) :
    refTripleList total raw [] = ⟨0, 0, 0⟩ := by
  rw [refTripleList]

theorem refTripleList_cons (total : ℚ) (raw : List RawRow) (c : Share)
    (cs : List Share) :
    refTripleList total raw (c :: cs) =
      (refTriple total raw c).add (refTripleList total raw cs) := by
  rw [refTripleList]

theorem dfsLeavesList_names_subset :
    ∀ cs : List Share, ∀ x : Share, x ∈ dfsLeavesList cs →
      x.name ∈ allNamesList cs := by
  intro cs x hx
  obtain ⟨c, hc, hxc⟩ := (mem_dfsLeavesList x cs).mp hx
  exact (mem_allNamesList x.name cs).mpr
    ⟨c, hc, occurs_name_mem ((mem_dfsLeaves c x).mp hxc).1⟩

theorem dfsLeaves_names_nodup :
    ∀ t : Share, (Share.allNames t).Nodup →
      ((dfsLeaves t).map Share.name).Nodup := by
  refine Share.my_induction _ (fun t iht => ?_)
  intro hnd
  rw [allNames_def, List.nodup_cons] at hnd
  obtain ⟨_, hnd2⟩ := hnd
  by_cases hc : t.children = []
  · rw [dfsLeaves]
    simp [hc]
  · rw [dfsLeaves]
    simp only [List.isEmpty_iff, hc, if_neg, if_false]
    have hlist : ∀ cs : List Share,
        (∀ c ∈ cs, (Share.allNames c).Nodup →
          ((dfsLeaves c).map Share.name).Nodup) →
        (allNamesList cs).Nodup →
        ((dfsLeavesList cs).map Share.name).Nodup := by
      intro cs
      induction cs with
      | nil =>
          intro _ _
          rw [dfsLeavesList_nil]
          simp
      | cons c rest ihl =>
          intro hih hnd3
          rw [allNamesList_cons, List.nodup_append] at hnd3
          obtain ⟨h1, h2, hdisj⟩ := hnd3
          rw [dfsLeavesList_cons, List.map_append, List.nodup_append]
          refine ⟨hih c (by simp) h1,
            ihl (fun x hx => hih x (by simp [hx])) h2, ?_⟩
          intro x hx1 hx2
          obtain ⟨y1, hy1, hyn1⟩ := List.mem_map.mp hx1
          obtain ⟨y2, hy2, hyn2⟩ := List.mem_map.mp hx2
          have hm1 : x ∈ Share.allNames c := by
            rw [← hyn1]
            exact occurs_name_mem ((mem_dfsLeaves c y1).mp hy1).1
          have hm2 : x ∈ allNamesList rest := by
            rw [← hyn2]
            exact dfsLeavesList_names_subset rest y2 hy2
          exact hdisj hm1 hm2
    exact hlist t.children iht hnd2

theorem subtreeSum_eq_refTriple (raw : List RawRow) (d : HSDist) :
    ∀ s : Share,
      (∀ x ∈ dfsLeaves s,
        d x.name = some ⟨codeExecTotal raw * x.value / 100,
          lastVal raw x.name StatusGroup.queued,
          lastVal raw x.name StatusGroup.executing,
          lastIgnore raw x.name⟩) →
      subtreeSum d s = refTriple (codeExecTotal raw) raw s := by
  refine Share.my_induction _ (fun s ihs => ?_)
  intro hent
  by_cases hc : s.children = []
  · rw [subtreeSum_leaf d s hc, refTriple_leaf _ raw s hc]
    have := hent s (by rw [dfsLeaves]; simp [hc])
    simp [leafTripleOf, this]
  · rw [subtreeSum_node d s hc, refTriple_node _ raw s hc]
    have hlist : ∀ cs : List Share,
        (∀ c ∈ cs,
          (∀ x ∈ dfsLeaves c,
            d x.name = some ⟨codeExecTotal raw * x.value / 100,
              lastVal raw x.name StatusGroup.queued,
              lastVal raw x.name StatusGroup.executing,
              lastIgnore raw x.name⟩) →
          subtreeSum d c = refTriple (codeExecTotal raw) raw c) →
        (∀ c ∈ cs, ∀ x ∈ dfsLeaves c,
          d x.name = some ⟨codeExecTotal raw * x.value / 100,
            lastVal raw x.name StatusGroup.queued,
            lastVal raw x.name StatusGroup.executing,
            lastIgnore raw x.name⟩) →
        subtreeSumList d cs = refTripleList (codeExecTotal raw) raw cs := by
      intro cs
      induction cs with
      | nil =>
          intro _ _
          rw [subtreeSumList_nil, refTripleList_nil]
      | cons c rest ihl =>
          intro hih hent2
          rw [subtreeSumList_cons, refTripleList_cons]
          rw [hih c (by simp) (hent2 c (by simp)),
            ihl (fun x hx => hih x (by simp [hx]))
              (fun x hx => hent2 x (by simp [hx]))]
    refine hlist s.children ihs ?_
    intro c hcm x hx
    refine hent x ?_
    rw [dfsLeaves]
    simp only [List.isEmpty_iff, hc, if_neg, if_false]
    exact (mem_dfsLeavesList x s.children).mpr ⟨c, hcm, hx⟩

/-- Full characterization of reload_hs_distribution over a tree with globally
distinct node names: every tree node carries the reference triple computed
with the code executing total, and names foreign to both the tree and the raw
rows are absent. -/
theorem reload_char (t : Share) (raw : List RawRow)
    (hnd : (Share.allNames t).Nodup) :
    (∀ s : Share, Occurs s t →
      ∃ e, reloadHsDistribution t raw s.name = some e ∧
        e.executing = (refTriple (codeExecTotal raw) raw s).executing ∧
        e.queued = (refTriple (codeExecTotal raw) raw s).queued ∧
        e.pledged = (refTriple (codeExecTotal raw) raw s).pledged) ∧
    (∀ n : String, (∀ s : Share, Occurs s t → s.name ≠ n) →
      raw.filter (fun r => r.gshare = n) = [] →
      reloadHsDistribution t raw n = none) := by
  have hleq : getLeaves t [] = dfsLeaves t := by
    rw [getLeaves_append t [], List.nil_append]
  have hnames : ((dfsLeaves t).map Share.name).Nodup :=
    dfsLeaves_names_nodup t hnd
  have hleaf : ∀ x ∈ dfsLeaves t,
      getHsLeaveDistribution (dfsLeaves t) raw x.name =
        some ⟨codeExecTotal raw * x.value / 100,
          lastVal raw x.name StatusGroup.queued,
          lastVal raw x.name StatusGroup.executing,
          lastIgnore raw x.name⟩ :=
    fun x hx => getHsLeaveDistribution_at_leaf (dfsLeaves t) raw hnames x hx
  obtain ⟨hc1, hc2, hc3⟩ :=
    aggregate_char t hnd (getHsLeaveDistribution (dfsLeaves t) raw)
  have hrw : reloadHsDistribution t raw =
      (Share.aggregate t (getHsLeaveDistribution (dfsLeaves t) raw)).2 := by
    rw [reloadHsDistribution, hleq]
  constructor
  · intro s hocc
    by_cases hsc : s.children = []
    · have hsm : s ∈ dfsLeaves t := (mem_dfsLeaves t s).mpr ⟨hocc, hsc⟩
      have hniu : s.name ∉ internalNames t := by
        intro hmem
        obtain ⟨s2, hocc2, hsc2, hn2⟩ := mem_internalNames t s.name hmem
        have : s2 = s := occurs_same_name_eq t hnd s2 s hocc2 hocc hn2
        rw [this] at hsc2
        exact hsc2 hsc
      rw [hrw]
      rw [hc2 s.name hniu, hleaf s hsm]
      refine ⟨_, rfl, ?_, ?_, ?_⟩ <;>
        rw [refTriple_leaf _ raw s hsc]
    · rw [hrw, hc3 s hocc hsc]
      have hsub : subtreeSum (getHsLeaveDistribution (dfsLeaves t) raw) s =
          refTriple (codeExecTotal raw) raw s := by
        refine subtreeSum_eq_refTriple raw _ s ?_
        intro x hx
        obtain ⟨hoxs, hxc⟩ := (mem_dfsLeaves s x).mp hx
        exact hleaf x ((mem_dfsLeaves t x).mpr ⟨occurs_trans hoxs hocc, hxc⟩)
      rw [hsub]
      exact ⟨_, rfl, rfl, rfl, rfl⟩
  · intro n hn hfil
    have hniu : n ∉ internalNames t := by
      intro hmem
      obtain ⟨s2, hocc2, _, hn2⟩ := mem_internalNames t n hmem
      exact hn s2 hocc2 hn2
    rw [hrw, hc2 n hniu]
    refine getHsLeaveDistribution_absent (dfsLeaves t) raw n ?_ hfil
    intro l hl
    exact hn l ((mem_dfsLeaves t l).mp hl).1

/-! ## Lemmas about the task classifier -/

/-- Specification reading of one classifier field: a missing pattern is a
wildcard; a present pattern must accept some initial segment of the field,
with the rest of the field unconstrained. -/
def FieldMatchSpec (pat : Option Regex) (v : String) : Prop :=
  ∀ p : Regex, pat = some p →
    ∃ pre suf : List Char, v.toList = pre ++ suf ∧ p.matchFull pre = true

/-- Specification reading of compare_share_task over the four fields. -/
def MatchesSpec (s : Share) (t : TaskSpec) : Prop :=
  FieldMatchSpec s.prodsourcelabel t.prodSourceLabel ∧
  FieldMatchSpec s.workinggroup t.workingGroup ∧
  FieldMatchSpec s.campaign t.campaign ∧
  FieldMatchSpec s.processingtype t.processingtype

theorem fieldMatches_iff (pat : Option Regex) (v : String) :
    fieldMatches pat v = true ↔ FieldMatchSpec pat v := by
  cases pat with
  | none =>
      simp only [fieldMatches, FieldMatchSpec]
      constructor
      · intro _ p hp
        exact absurd hp (by simp)
      · intro _
        trivial
  | some p =>
      simp only [fieldMatches, FieldMatchSpec, reMatch]
      rw [Regex.matchFrom_iff]
      constructor
      · rintro ⟨pre, suf, hsplit, hm⟩ q hq
        simp only [Option.some.injEq] at hq
        exact ⟨pre, suf, hsplit, hq ▸ hm⟩
      · intro h
        exact h p rfl

theorem compareShareTask_iff (s : Share) (t : TaskSpec) :
    compareShareTask s t = true ↔ MatchesSpec s t := by
  simp only [compareShareTask, Bool.and_eq_true, MatchesSpec,
    fieldMatches_iff]
  tauto

theorem getShareForTask_no_match (leaves : List Share) (t : TaskSpec)
    (h : ∀ s ∈ leaves, ¬ MatchesSpec s t) :
    getShareForTask leaves t = ("Undefined", true) := by
  have hfind : leaves.find? (fun s => compareShareTask s t) = none := by
    rw [List.find?_eq_none]
    intro s hs
    rw [Bool.not_eq_true]
    rw [← Bool.not_eq_true, compareShareTask_iff]
    exact h s hs
  simp [getShareForTask, hfind]

theorem getShareForTask_first_match :
    ∀ leaves : List Share, ∀ t : TaskSpec, ∀ first : Share,
      (∃ pre rest : List Share, leaves = pre ++ first :: rest ∧
        (∀ s ∈ pre, ¬ MatchesSpec s t) ∧ MatchesSpec first t) →
      (getShareForTask leaves t).1 = first.name := by
  intro leaves
  induction leaves with
  | nil =>
      rintro t first ⟨pre, rest, habs, _, _⟩
      exact absurd habs.symm (by simp)
  | cons l0 ls ih =>
      rintro t first ⟨pre, rest, heq, hpre, hfirst⟩
      cases pre with
      | nil =>
          simp only [List.nil_append, List.cons.injEq] at heq
          obtain ⟨h1, _⟩ := heq
          subst h1
          have hcmp : compareShareTask l0 t = true :=
            (compareShareTask_iff l0 t).mpr hfirst
          simp [getShareForTask, List.find?_cons, hcmp]
      | cons p0 ps =>
          simp only [List.cons_append, List.cons.injEq] at heq
          obtain ⟨h1, h2⟩ := heq
          subst h1
          have hno : compareShareTask l0 t = false := by
            rw [← Bool.not_eq_true, compareShareTask_iff]
            exact hpre l0 (by simp)
          have hrec := ih t first
            ⟨ps, rest, h2, fun s hs => hpre s (by simp [hs]), hfirst⟩
          simp only [getShareForTask, List.find?_cons, hno] at hrec ⊢
          exact hrec

/-! ## Concrete example trees used by witnesses and counterexamples -/

def exLeafA : Share := Share.mk "A" 50 none none none none none []

def exLeafB : Share := Share.mk "B" 30 none none none none none []

def exTree1 : Share :=
  Share.mk "root" 100 none none none none none [exLeafA, exLeafB]

def exTree1n : Share :=
  Share.mk "root" 100 none none none none none
    [Share.mk "A" (125 / 2) none none none none none [],
     Share.mk "B" (75 / 2) none none none none none []]

def exZeroA : Share := Share.mk "A" 0 none none none none none []

def exZeroB : Share := Share.mk "B" 0 none none none none none []

def exTree8 : Share :=
  Share.mk "root" 100 none none none none none [exZeroA, exZeroB]

theorem exTree1_normalize : Share.normalize exTree1 = some exTree1n := by
  norm_num [Share.normalize, Share.normalizeAux, normalizeList, sumValues,
    exTree1, exLeafA, exLeafB, exTree1n]

theorem exTree1n_normalize : Share.normalize exTree1n = some exTree1n := by
  norm_num [Share.normalize, Share.normalizeAux, normalizeList, sumValues,
    exTree1n]

theorem exTree1_posSums : PosSums exTree1 := by
  refine TreeAll.node _ ?_ ?_
  · intro _
    norm_num [exTree1, exLeafA, exLeafB, sumValues]
  · intro c hc
    have hleaf : c.children = [] := by
      simp only [exTree1, Share.children_mk] at hc
      rcases List.mem_cons.mp hc with rfl | hc
      · simp [exLeafA]
      · rcases List.mem_cons.mp hc with rfl | hc
        · simp [exLeafB]
        · exact absurd hc (by simp)
    refine TreeAll.node _ ?_ ?_
    · intro h
      exact absurd hleaf h
    · intro c2 hc2
      rw [hleaf] at hc2
      exact absurd hc2 (by simp)

/-- C1: for every tree with value 100 at the root and a positive weight sum
in every sibling group, normalize() succeeds, the root keeps weight exactly
100, and at every node with children the children weights sum to the node
weight. -/
theorem normalize_root_and_sums (t : Share) (hroot : t.value = 100)
    (hpos : PosSums t) :
    ∃ t2 : Share, Share.normalize t = some t2 ∧ t2.value = 100 ∧
      TreeAll (fun s => s.children ≠ [] → sumValues s.children = s.value)
        t2 := by
  have hsome := normalizeAux_isSome t hpos 100 100 (by norm_num)
  cases h : Share.normalizeAux 100 100 t with
  | none => rw [h] at hsome; exact absurd hsome (by simp)
  | some t2 =>
      obtain ⟨hval, hinv⟩ := normalizeAux_some_char t 100 100 t2 h
      refine ⟨t2, h, ?_, hinv⟩
      rw [hval, hroot]
      norm_num

/-- C1 witness: the two-leaf example tree normalizes to root weight 100 with
children summing to every parent weight. -/
theorem normalize_root_and_sums_witness :
    exTree1.value = 100 ∧ PosSums exTree1 ∧
      ∃ t2 : Share, Share.normalize exTree1 = some t2 ∧ t2.value = 100 ∧
        TreeAll (fun s => s.children ≠ [] → sumValues s.children = s.value)
          t2 :=
  ⟨rfl, exTree1_posSums,
    normalize_root_and_sums exTree1 rfl exTree1_posSums⟩

/-- C6 counterexample: on an already built tree, a second normalize() call
does not rescale anything: the example tree normalizes to a fixed point in
one call, so the weights after two calls equal the weights after one call,
contradicting the claimed double-rescaling. -/
theorem normalize_second_call_no_rescale :
    Share.normalize exTree1 = some exTree1n ∧
      Share.normalize exTree1n = some exTree1n :=
  ⟨exTree1_normalize, exTree1n_normalize⟩

/-- C6 (amended): normalize is exactly idempotent on success: whenever a
first call succeeds and a second call on its result succeeds as well, the
second call changes nothing.  A second call is still not always safe, but
only because it can fail with a division by zero, not because it rescales. -/
theorem normalize_idempotent_on_success (t t1 t2 : Share)
    (h1 : Share.normalize t = some t1) (h2 : Share.normalize t1 = some t2) :
    t2 = t1 := by
  obtain ⟨_, hinv⟩ := normalizeAux_some_char t 100 100 t1 h1
  exact normalizeAux_id t1 hinv 100 100 t2 rfl h2

/-- C6 witness: idempotence on success at the example tree. -/
theorem normalize_idempotent_on_success_witness :
    Share.normalize exTree1 = some exTree1n ∧
      Share.normalize exTree1n = some exTree1n ∧
      (Share.normalize exTree1 = some exTree1n →
        Share.normalize exTree1n = some exTree1n → exTree1n = exTree1n) :=
  ⟨exTree1_normalize, exTree1n_normalize,
    fun h1 h2 => normalize_idempotent_on_success exTree1 exTree1n exTree1n
      h1 h2⟩

/-- C8 counterexample: a node whose children weights sum to zero makes
normalize() fail with a division by zero (none) instead of completing with
zero-weight children. -/
theorem normalize_zero_sum_example_fails : Share.normalize exTree8 = none := by
  refine normalizeAux_zero_sum_none exTree8 ⟨exTree8, Occurs.refl _, ?_, ?_⟩
    100 100
  · simp [exTree8]
  · norm_num [exTree8, exZeroA, exZeroB, sumValues]

/-- C8 (amended): whenever some node of the tree has a nonempty children
list whose weights sum to zero, normalize() raises a division-by-zero error
(embedded as none); the children do not retain their weights, the call
fails. -/
theorem normalize_zero_sum_fails (t : Share) (h : HasZeroSumNode t) :
    Share.normalize t = none :=
  normalizeAux_zero_sum_none t h 100 100

/-- C8 witness: the all-zero-children example has a zero-sum node and the
call fails on it. -/
theorem normalize_zero_sum_fails_witness :
    HasZeroSumNode exTree8 ∧ Share.normalize exTree8 = none := by
  have hz : HasZeroSumNode exTree8 :=
    ⟨exTree8, Occurs.refl _, by simp [exTree8],
      by norm_num [exTree8, exZeroA, exZeroB, sumValues]⟩
  exact ⟨hz, normalize_zero_sum_fails exTree8 hz⟩

def exTree9 : Share := Share.mk "L" 1 none none none none none []

/-- C9 counterexample: with the shared mutable default accumulator, a second
parameterless get_leaves call starts from the previous result, so on a
one-leaf tree it returns the leaf twice and differs from the first call. -/
theorem get_leaves_second_call_differs :
    getLeaves exTree9 (getLeaves exTree9 []) ≠ getLeaves exTree9 [] := by
  simp [getLeaves, exTree9]

/-- C9 (amended): get_leaves appends the depth-first leaves of the tree to
whatever accumulator it is given; the enumeration of a call equals the
accumulator followed by the depth-first leaf list, that list is never empty,
and therefore a second call fed the first result (what Python's shared
default argument does) never equals the first call. -/
theorem get_leaves_appends_accumulator (t : Share) :
    (∀ acc : List Share, getLeaves t acc = acc ++ dfsLeaves t) ∧
      dfsLeaves t ≠ [] ∧
      getLeaves t (getLeaves t []) ≠ getLeaves t [] := by
  refine ⟨getLeaves_append t, dfsLeaves_ne_nil t, ?_⟩
  rw [getLeaves_append t, getLeaves_append t, List.nil_append]
  intro h
  have hlen := congrArg List.length h
  simp only [List.length_append] at hlen
  have : (dfsLeaves t).length = 0 := by omega
  exact dfsLeaves_ne_nil t (List.length_eq_zero.mp this)

def exTree7 : Share := Share.mk "root" 100 none none none none none [exLeafA]

/-- C7 counterexample: a distribution with no entry for the single child
makes sort_branch_by_current_hs_distribution raise a KeyError (none): the
child1 lookup is unguarded, so missing entries do not fall to the back. -/
theorem sort_branch_missing_entry_raises :
    Share.sortBranch (fun _ => none) exTree7 = none :=
  sortBranch_missing_none exTree7 (fun _ => none)
    ⟨exTree7, exLeafA, Occurs.refl _, by simp [exTree7], rfl⟩

/-- C7 (amended): sort_branch_by_current_hs_distribution raises a KeyError
exactly when some node of the branch has a child without a distribution
entry; with entries for every such child it completes without error.  The
try/except in the loop protects only already-inserted siblings, whose
lookups have already succeeded, so a missing entry never falls to the back
of its group. -/
theorem sort_branch_error_iff (t : Share) (d : HSDist) :
    Share.sortBranch d t = none ↔
      ∃ s c : Share, Occurs s t ∧ c ∈ s.children ∧ d c.name = none := by
  constructor
  · intro hnone
    by_contra hno
    push_neg at hno
    obtain ⟨out, hsome, _⟩ := sortBranch_entries t d
      (fun s c ho hm => Option.ne_none_iff_isSome.mp (hno s c ho hm))
    rw [hnone] at hsome
    exact absurd hsome (by simp)
  · exact sortBranch_missing_none t d

def exD3 : HSDist := fun n =>
  if n = "root" then some ⟨0, 0, 0, none⟩
  else if n = "A" then some ⟨10, 0, 2, none⟩
  else if n = "B" then some ⟨5, 0, 1, none⟩
  else none

/-- C3: with a distribution entry for every node of the tree, the sort
returns the leaves in hierarchical order: every sibling group is permuted
stably into non-increasing under-pledge order and the recursive blocks of
the children are concatenated in that order, so leaves under an
earlier-ranked sibling all precede leaves under a later-ranked one and
leaves under different parents are never compared with each other. -/
theorem sort_branch_hierarchical (t : Share) (d : HSDist)
    (h : ∀ n ∈ Share.allNames t, (d n).isSome) :
    ∃ out, Share.sortBranch d t = some out ∧
      HierOrdered (upKey d) t out :=
  sortBranch_entries t d
    (fun s c ho hm =>
      h c.name (occurs_name_mem (occurs_of_mem_children ho hm)))

/-- C3 witness: the example tree with full entries sorts successfully into a
hierarchically ordered leaf list. -/
theorem sort_branch_hierarchical_witness :
    (∀ n ∈ Share.allNames exTree1, (exD3 n).isSome) ∧
      ∃ out, Share.sortBranch exD3 exTree1 = some out ∧
        HierOrdered (upKey exD3) exTree1 out := by
  have h : ∀ n ∈ Share.allNames exTree1, (exD3 n).isSome := by
    intro n hn
    simp only [Share.allNames, allNamesList, exTree1, exLeafA, exLeafB,
      Share.children_mk, Share.name_mk, List.mem_cons, List.append_nil,
      List.cons_append, List.nil_append, List.not_mem_nil, or_false] at hn
    rcases hn with rfl | rfl | rfl
    · simp [exD3]
    · simp [exD3]
    · simp [exD3]
  exact ⟨h, sort_branch_hierarchical exTree1 exD3 h⟩

def exLeafA2 : Share := Share.mk "A" 100 none none none none none []

def exTree2 : Share := Share.mk "root" 100 none none none none none [exLeafA2]

def exRaw2 : List RawRow := [⟨"B", StatusGroup.executing, 5⟩]

theorem exTree2_names : Share.allNames exTree2 = ["root", "A"] := by
  simp [Share.allNames, allNamesList, exTree2, exLeafA2]

theorem exTree2_nodup : (Share.allNames exTree2).Nodup := by
  rw [exTree2_names]
  decide

theorem exTree2_occursA : Occurs exLeafA2 exTree2 :=
  Occurs.child (by simp [exTree2]) (Occurs.refl exLeafA2)

/-- C2 counterexample: with one tree leaf A and a raw executing row for a
share B that is not a leaf of the tree, the code computes pledged for A from
the executing total over all rows (5), while the reference of the claim,
whose total sums executing over the leaves only, gives 0. -/
theorem reload_pledged_total_mismatch :
    (∃ e, reloadHsDistribution exTree2 exRaw2 "A" = some e ∧
      e.pledged = 5) ∧
    (refTriple (claimExecTotal exTree2 exRaw2) exRaw2 exLeafA2).pledged =
      0 := by
  constructor
  · obtain ⟨hall, _⟩ := reload_char exTree2 exRaw2 exTree2_nodup
    obtain ⟨e, heq, _, _, hp⟩ := hall exLeafA2 exTree2_occursA
    refine ⟨e, ?_, ?_⟩
    · simpa [exLeafA2] using heq
    · rw [hp, refTriple_leaf _ _ _ (by simp [exLeafA2])]
      norm_num [codeExecTotal, exRaw2, exLeafA2]
  · rw [refTriple_leaf _ _ _ (by simp [exLeafA2])]
    norm_num [claimExecTotal, dfsLeaves, dfsLeavesList, exTree2, exLeafA2,
      lastVal, exRaw2]
    decide

/-- C2 (amended): for a tree with globally distinct node names, refresh
produces the reference distribution computed with the executing total over
all raw rows (rather than over the tree leaves only): each tree leaf takes
queued and executing from its measurement rows (zero without a row) and
pledged equal to that total scaled by its weight over 100, and each node
with children carries the element-wise sums of its children, computed
bottom-up; names foreign to both the tree and the raw rows stay absent,
while raw share names outside the tree may keep entries of their own. -/
theorem reload_matches_code_reference (t : Share) (raw : List RawRow)
    (hnd : (Share.allNames t).Nodup) :
    (∀ s : Share, Occurs s t →
      ∃ e, reloadHsDistribution t raw s.name = some e ∧
        e.executing = (refTriple (codeExecTotal raw) raw s).executing ∧
        e.queued = (refTriple (codeExecTotal raw) raw s).queued ∧
        e.pledged = (refTriple (codeExecTotal raw) raw s).pledged) ∧
    (∀ n : String, (∀ s : Share, Occurs s t → s.name ≠ n) →
      raw.filter (fun r => r.gshare = n) = [] →
      reloadHsDistribution t raw n = none) :=
  reload_char t raw hnd

/-- C2 witness: the amended reference matches the code on the example tree
and raw rows. -/
theorem reload_matches_code_reference_witness :
    (Share.allNames exTree2).Nodup ∧
      ∃ e, reloadHsDistribution exTree2 exRaw2 exLeafA2.name = some e ∧
        e.executing =
          (refTriple (codeExecTotal exRaw2) exRaw2 exLeafA2).executing ∧
        e.queued =
          (refTriple (codeExecTotal exRaw2) exRaw2 exLeafA2).queued ∧
        e.pledged =
          (refTriple (codeExecTotal exRaw2) exRaw2 exLeafA2).pledged :=
  ⟨exTree2_nodup,
    (reload_matches_code_reference exTree2 exRaw2 exTree2_nodup).1
      exLeafA2 exTree2_occursA⟩

/-- C5 counterexample: an ignore row is not dropped from the per-share map:
it creates the share entry and stores its value under the ignore key, so the
entry does not consist of the three claimed fields alone. -/
theorem ignore_row_stored_in_entry :
    getHsLeaveDistribution [] [⟨"A", StatusGroup.ignore, 7⟩] "A" =
      some ⟨0, 0, 0, some 7⟩ := by
  simp [getHsLeaveDistribution, buildRawState, applyRawRow, setGroupVal,
    emptyEntry, HSDist.update]

/-- C5 (amended): ignore rows are summed into their own total and are
excluded from the executing total that pledged values are computed from,
but they are not excluded from the per-share map: an ignore row creates the
share entry if needed and stores its value under the ignore key of that
entry. -/
theorem ignore_rows_totals_and_map (raw : List RawRow)
    (leaves : List Share) (g : String) (v : ℚ)
    (hmem : (⟨g, StatusGroup.ignore, v⟩ : RawRow) ∈ raw) :
    (buildRawState raw).executingTotal = codeExecTotal raw ∧
    (buildRawState raw).ignoreTotal = ignoreTotalOf raw ∧
    ∃ e, getHsLeaveDistribution leaves raw g = some e ∧
      e.ignoreVal.isSome := by
  refine ⟨(buildRawState_totals raw).1, (buildRawState_totals raw).2, ?_⟩
  have hin : (⟨g, StatusGroup.ignore, v⟩ : RawRow) ∈
      raw.filter (fun r => r.gshare = g) :=
    List.mem_filter.mpr ⟨hmem, by simp⟩
  have hfe : raw.filter (fun r => r.gshare = g) ≠ [] :=
    List.ne_nil_of_mem hin
  have hdict : (buildRawState raw).dict g =
      some ⟨0, lastVal raw g StatusGroup.queued,
        lastVal raw g StatusGroup.executing, lastIgnore raw g⟩ := by
    rw [buildRawState_dict, if_neg hfe]
  have hsome : (lastIgnore raw g).isSome :=
    lastIgnore_isSome g raw ⟨⟨g, StatusGroup.ignore, v⟩, hmem, rfl, rfl⟩
  rw [getHsLeaveDistribution]
  exact pledgedFold_ignore (buildRawState raw).executingTotal leaves
    (buildRawState raw).dict g ⟨_, hdict, hsome⟩

/-- C5 witness: the single ignore row example, with totals and the stored
ignore key. -/
theorem ignore_rows_totals_and_map_witness :
    ((⟨"A", StatusGroup.ignore, 7⟩ : RawRow) ∈
      [(⟨"A", StatusGroup.ignore, 7⟩ : RawRow)]) ∧
    (buildRawState [(⟨"A", StatusGroup.ignore, 7⟩ : RawRow)]).executingTotal =
      codeExecTotal [(⟨"A", StatusGroup.ignore, 7⟩ : RawRow)] ∧
    (buildRawState [(⟨"A", StatusGroup.ignore, 7⟩ : RawRow)]).ignoreTotal =
      ignoreTotalOf [(⟨"A", StatusGroup.ignore, 7⟩ : RawRow)] ∧
    ∃ e, getHsLeaveDistribution []
        [(⟨"A", StatusGroup.ignore, 7⟩ : RawRow)] "A" = some e ∧
      e.ignoreVal.isSome :=
  ⟨by simp,
    ignore_rows_totals_and_map [(⟨"A", StatusGroup.ignore, 7⟩ : RawRow)] []
      "A" 7 (by simp)⟩

/-- C4: compare_share_task accepts a share exactly when each of the four
classifier fields is either missing (wildcard) or matches a start segment of
the corresponding task field, the match not having to reach the end of the
field; get_share_for_task returns the name of the first accepted leaf in
list order, and when no leaf is accepted it returns the sentinel and logs
the warning instead of raising. -/
theorem get_share_for_task_char (leaves : List Share) (t : TaskSpec) :
    (∀ s : Share, compareShareTask s t = true ↔ MatchesSpec s t) ∧
    ((∀ s ∈ leaves, ¬ MatchesSpec s t) →
      getShareForTask leaves t = ("Undefined", true)) ∧
    (∀ first pre rest, leaves = pre ++ first :: rest →
      (∀ s ∈ pre, ¬ MatchesSpec s t) → MatchesSpec first t →
      (getShareForTask leaves t).1 = first.name) := by
  refine ⟨fun s => compareShareTask_iff s t,
    getShareForTask_no_match leaves t, ?_⟩
  intro first pre rest heq hpre hfirst
  exact getShareForTask_first_match leaves t first
    ⟨pre, rest, heq, hpre, hfirst⟩

def regexUser : Regex :=
  Regex.cat (Regex.chr 'u')
    (Regex.cat (Regex.chr 's') (Regex.cat (Regex.chr 'e') (Regex.chr 'r')))

def exShareU : Share :=
  Share.mk "Analysis" 100 none (some regexUser) none none none []

def exTask4 : TaskSpec := ⟨"user123", "wg", "camp", "ptype"⟩

theorem exShareU_matches : MatchesSpec exShareU exTask4 := by
  refine ⟨?_, ?_, ?_, ?_⟩
  · intro p hp
    simp only [exShareU, Share.prodsourcelabel_mk, Option.some.injEq] at hp
    subst hp
    refine ⟨"user".toList, "123".toList, by decide, by decide⟩
  · intro p hp
    simp [exShareU] at hp
  · intro p hp
    simp [exShareU] at hp
  · intro p hp
    simp [exShareU] at hp

/-- C4 witness: the pattern user matches the task field user123 from the
start without consuming it entirely, and the first (only) leaf is
returned. -/
theorem get_share_for_task_char_witness :
    MatchesSpec exShareU exTask4 ∧
      (getShareForTask [exShareU] exTask4).1 = "Analysis" := by
  refine ⟨exShareU_matches, ?_⟩
  have := (get_share_for_task_char [exShareU] exTask4).2.2 exShareU [] []
    rfl (by simp) exShareU_matches
  simpa [exShareU] using this

def cycRow : ShareRow := ⟨"A", 1, some "A", none, none, none, none⟩

def cycStore : Option String → List ShareRow := fun _ => [cycRow]

def negRow : ShareRow := ⟨"A", -5, none, none, none, none, none⟩

def negStore : Option String → List ShareRow := fun q =>
  match q with
  | none => [negRow]
  | some _ => []

theorem loadBranch_cyc : ∀ fuel : ℕ, loadBranch cycStore fuel cycRow = none := by
  intro fuel
  induction fuel with
  | zero => rfl
  | succ fuel ih =>
      simp [loadBranch, cycStore, listMapOpt, ih]

/-- C10 counterexample: a store row with a negative weight builds a tree
without any error, contradicting the claimed ConfigurationError on
non-finite or negative weights. -/
theorem build_accepts_negative_weight : (buildTree negStore 1).isSome := by
  norm_num [buildTree, negStore, negRow, listMapOpt, loadBranch,
    Share.normalize, Share.normalizeAux, normalizeList, sumValues]

/-- C10 (amended): build performs no weight validation, constructing the
tree even from a negative-weight row; on a store whose parent relation is
cyclic the recursive fetch never terminates on its own, exhausting any
recursion budget (the interpreter limit raising RecursionError, not a
ConfigurationError, which does not exist in the code). -/
theorem build_no_validation :
    (∀ fuel : ℕ, buildTree cycStore fuel = none) ∧
      (buildTree negStore 1).isSome := by
  constructor
  · intro fuel
    simp [buildTree, cycStore, listMapOpt, loadBranch_cyc fuel]
  · norm_num [buildTree, negStore, negRow, listMapOpt, loadBranch,
      Share.normalize, Share.normalizeAux, normalizeList, sumValues]

/-- C7 witness: the error equivalence applied to a concrete tree with an
empty distribution. -/
theorem sort_branch_error_iff_witness :
    Share.sortBranch (fun _ => none) exTree1 = none :=
  (sort_branch_error_iff exTree1 (fun _ => none)).mpr
    ⟨exTree1, exLeafA, Occurs.refl exTree1, by simp [exTree1], rfl⟩

/-- C9 witness: the accumulator behavior applied to the one-leaf tree. -/
theorem get_leaves_appends_accumulator_witness :
    getLeaves exTree9 [] = [] ++ dfsLeaves exTree9 ∧
      dfsLeaves exTree9 ≠ [] ∧
      getLeaves exTree9 (getLeaves exTree9 []) ≠ getLeaves exTree9 [] := by
  have h := get_leaves_appends_accumulator exTree9
  exact ⟨h.1 [], h.2.1, h.2.2⟩

/-- C10 witness: the build behavior applied at concrete fuel. -/
theorem build_no_validation_witness :
    buildTree cycStore 3 = none ∧ (buildTree negStore 1).isSome :=
  ⟨build_no_validation.1 3, build_no_validation.2⟩
